import Mathlib

/-!
Verification development for the position-addressable slide-text protocol in
src/main.py: the addressable extractor (extract_content), the line patcher
(apply_changes) and the streaming edit-stream loop of the generator tab.

Strings are modelled as lists of characters (Python str ≈ List Char).
Machine representation details of the slide file format are external; a
Document is the structural tree the code traverses: slides, shapes with an
optional text frame, paragraphs, runs.
-/

namespace SlideProto

/-- Whitespace predicate for the ASCII whitespace characters recognised both by
Python's str.strip() and by the regex class used in apply_changes. -/
def pyIsSpace (c : Char) : Bool :=
  c = ' ' || c = '\t' || c = '\n' || c = '\r' || c = Char.ofNat 11 || c = Char.ofNat 12

/-- Python str.strip(): remove leading and trailing whitespace. -/
def pyStrip (l : List Char) : List Char :=
  ((l.dropWhile pyIsSpace).reverse.dropWhile pyIsSpace).reverse

/-- The decimal digit character for a value below ten. -/
def digitChar (d : Nat) : Char := Char.ofNat (48 + d)

/-- Fuel-driven decimal rendering of a natural number. -/
def natDigitsAux : Nat → Nat → List Char
  | 0, _ => []
  | fuel + 1, n =>
    if n < 10 then [digitChar n]
    else natDigitsAux fuel (n / 10) ++ [digitChar (n % 10)]

/-- Decimal rendering of a natural number, as Python string formatting emits it. -/
def natDigits (n : Nat) : List Char := natDigitsAux (n + 1) n

/-- Value of a string of decimal digits. -/
def digitsVal (ds : List Char) : Nat := ds.foldl (fun a c => 10 * a + (c.toNat - 48)) 0

/-- Python int() restricted to the inputs it receives in apply_changes: a
nonempty all-digit string parses to its value, anything else fails (in the
source a failure raises and is caught by the per-line except clause). -/
def pyInt? (l : List Char) : Option Nat :=
  if l ≠ [] ∧ ∀ c ∈ l, c.isDigit then some (digitsVal l) else none

/-- Boolean test that the first argument is a leading segment of the second. -/
def leadsWith : List Char → List Char → Bool
  | [], _ => true
  | _ :: _, [] => false
  | c :: cs, d :: ds => c = d && leadsWith cs ds

/-- Index of the first occurrence of sep as a contiguous substring, mirroring
Python's str.find / the "sub in s" containment test. -/
def findSub (sep : List Char) : List Char → Option Nat
  | [] => if leadsWith sep [] then some 0 else none
  | c :: rest =>
    if leadsWith sep (c :: rest) then some 0 else (findSub sep rest).map (· + 1)

/-- Python "sep in hay" substring containment. -/
def containsSub (sep hay : List Char) : Bool := (findSub sep hay).isSome

/-- Fuel-driven body of Python str.split(sep) for a nonempty separator:
cut at each non-overlapping occurrence, scanning left to right. -/
def pySplitAux (sep : List Char) : Nat → List Char → List (List Char)
  | 0, hay => [hay]
  | fuel + 1, hay =>
    match findSub sep hay with
    | none => [hay]
    | some i => hay.take i :: pySplitAux sep fuel (hay.drop (i + sep.length))

/-- Python str.split(sep) for a nonempty separator string. -/
def pySplit (sep hay : List Char) : List (List Char) := pySplitAux sep (hay.length + 1) hay

/-- The module-level delimiter constant SEPARATOR in src/main.py. -/
def SEPARATOR : List Char := "@@@_START_SLIDE_CONTENT_@@@".data

/-- The two states of the stream-consumption loop in the generator tab:
mode == "THINKING" and mode == "WRITING". -/
inductive Mode where
  | Thinking
  | Writing
deriving DecidableEq

/-- State carried across iterations of the stream loop: the mode flag, the
thinking_buffer accumulator and the slide_content accumulator. -/
structure PState where
  mode : Mode
  thinking : List Char
  slide : List Char
deriving DecidableEq

/-- Loop entry state: mode "THINKING", both accumulators empty. -/
def initPS : PState := ⟨Mode.Thinking, [], []⟩

/-- One iteration of the stream loop of src/main.py (lines 363-378) on a single
arriving fragment: in THINKING mode append to the buffer and test it for the
separator, on a hit switch to WRITING and append parts[1] of the buffer split
to slide_content; in WRITING mode append the fragment to slide_content. -/
def pstep (sep : List Char) (st : PState) (content : List Char) : PState :=
  match st.mode with
  | Mode.Thinking =>
    let tb := st.thinking ++ content
    if containsSub sep tb then
      let parts := pySplit sep tb
      { mode := Mode.Writing, thinking := tb,
        slide := st.slide ++ (if 1 < parts.length then parts.getD 1 [] else []) }
    else { st with thinking := tb }
  | Mode.Writing => { st with slide := st.slide ++ content }

/-- Consume a whole fragment stream from the loop entry state. -/
def runStream (sep : List Char) (frags : List (List Char)) : PState :=
  frags.foldl (pstep sep) initPS

/-- The fail-safe recovery of src/main.py (lines 380-393), entered when the
stream ended still in THINKING mode: if the buffer shows "\x7bS0" or "||",
keep exactly the lines containing both "||" and "\x7b", newline-joined;
otherwise (or when no such line exists) report failure (none). -/
def failSafe (tb : List Char) : Option (List Char) :=
  if containsSub "\x7bS0".data tb || containsSub "||".data tb then
    let lines := tb.splitOn '\n'
    let valid := lines.filter (fun l => containsSub "||".data l && containsSub "\x7b".data l)
    if valid ≠ [] then some (List.intercalate "\n".data valid) else none
  else none

/-- Value of slide_content after the post-stream fail-safe block: recovery
replaces it wholesale on success; on failure it keeps its looped value. -/
def finalPayload (st : PState) : List Char :=
  match st.mode with
  | Mode.Thinking =>
    match failSafe st.thinking with
    | some p => p
    | none => st.slide
  | Mode.Writing => st.slide

/-- True when sep occurs at least twice (non-overlapping, scanning left to
right) in the text. -/
def hasTwoSub (sep text : List Char) : Bool :=
  match findSub sep text with
  | none => false
  | some i => containsSub sep (text.drop (i + sep.length))

/-- A run: a contiguous span of styled text inside a paragraph. Only the text
is touched by the code; the style tag stands for the untouched formatting. -/
structure Run where
  text : List Char
  style : Nat
deriving DecidableEq

/-- A paragraph: an ordered sequence of runs. -/
structure Paragraph where
  runs : List Run
deriving DecidableEq

/-- A shape, which may or may not carry a text frame of paragraphs
(shape.has_text_frame / shape.text_frame.paragraphs). -/
structure Shape where
  textFrame : Option (List Paragraph)
deriving DecidableEq

/-- A slide: an ordered sequence of shapes. -/
structure Slide where
  shapes : List Shape
deriving DecidableEq

/-- A document: an ordered sequence of slides. -/
abbrev Document := List Slide

/-- The effective text of a paragraph: concatenation of its runs' text,
that is "".join(run.text for run in paragraph.runs). -/
def paragraphText (p : Paragraph) : List Char := (p.runs.map Run.text).flatten

/-- The opening brace character. -/
def lbrace : Char := Char.ofNat 123

/-- The closing brace character. -/
def rbrace : Char := Char.ofNat 125

/-- The positional identifier literal \x7bS<si>:Sh<shi>:P<pi>\x7d. -/
def fmtId (si shi pi : Nat) : List Char :=
  lbrace :: 'S' ::
    (natDigits si ++ ':' :: 'S' :: 'h' ::
      (natDigits shi ++ ':' :: 'P' :: (natDigits pi ++ [rbrace])))

/-- One extracted line: f"\x7bS{s_idx}:Sh{sh_idx}:P{p_idx}\x7d || {text}". -/
def fmtLine (si shi pi : Nat) (t : List Char) : List Char :=
  fmtId si shi pi ++ ' ' :: '|' :: '|' :: ' ' :: t

/-- Paragraph loop of extract_content, carrying the enumerate counter. -/
def extractParas (si shi : Nat) : Nat → List Paragraph → List (List Char)
  | _, [] => []
  | pi, p :: ps =>
    (if pyStrip (paragraphText p) ≠ []
      then [fmtLine si shi pi (pyStrip (paragraphText p))] else []) ++
    extractParas si shi (pi + 1) ps

/-- Shape loop of extract_content: shapes without a text frame contribute no
lines but still advance the shape counter. -/
def extractShapes (si : Nat) : Nat → List Shape → List (List Char)
  | _, [] => []
  | shi, sh :: shs =>
    (match sh.textFrame with
     | none => []
     | some ps => extractParas si shi 0 ps) ++ extractShapes si (shi + 1) shs

/-- Slide loop of extract_content. -/
def extractSlides : Nat → List Slide → List (List Char)
  | _, [] => []
  | si, sl :: sls => extractShapes si 0 sl.shapes ++ extractSlides (si + 1) sls

/-- extract_content of src/main.py (lines 149-162): the newline-joined list of
extracted lines. -/
def extract_content (prs : Document) : List Char :=
  List.intercalate "\n".data (extractSlides 0 prs)

/-- Deterministic reading of the regex
(\x7bS\d+:Sh\d+:P\d+\x7d)\s*\|\|\s*(.*) anchored at the start of the given
text: on success returns the three digit groups and the final capture (which
stops at a newline, as . does not match newlines). Each greedy class in the
pattern is followed by a literal outside the class, so no backtracking point
is ever revisited and the match is this deterministic scan. -/
def matchIdAt (l : List Char) : Option ((List Char × List Char × List Char) × List Char) :=
  match l with
  | c0 :: c1 :: r1 =>
    if c0 = lbrace ∧ c1 = 'S' then
      let d1 := r1.takeWhile Char.isDigit
      if d1 = [] then none else
      match r1.dropWhile Char.isDigit with
      | c2 :: c3 :: c4 :: r2 =>
        if c2 = ':' ∧ c3 = 'S' ∧ c4 = 'h' then
          let d2 := r2.takeWhile Char.isDigit
          if d2 = [] then none else
          match r2.dropWhile Char.isDigit with
          | c5 :: c6 :: r3 =>
            if c5 = ':' ∧ c6 = 'P' then
              let d3 := r3.takeWhile Char.isDigit
              if d3 = [] then none else
              match r3.dropWhile Char.isDigit with
              | c7 :: r4 =>
                if c7 = rbrace then
                  match r4.dropWhile pyIsSpace with
                  | c8 :: c9 :: r6 =>
                    if c8 = '|' ∧ c9 = '|' then
                      some ((d1, d2, d3),
                        (r6.dropWhile pyIsSpace).takeWhile (fun c => c ≠ '\n'))
                    else none
                  | _ => none
                else none
              | [] => none
            else none
          | _ => none
        else none
      | _ => none
    else none
  | _ => none

/-- re.search: try the pattern at every start position, leftmost hit wins. -/
def searchEdit : List Char → Option ((List Char × List Char × List Char) × List Char)
  | [] => matchIdAt []
  | c :: rest =>
    match matchIdAt (c :: rest) with
    | some r => some r
    | none => searchEdit rest

/-- Brace-character predicate for uid.strip("\x7b\x7d"). -/
def isBraceChar (c : Char) : Bool := c = lbrace || c = rbrace

/-- Python str.strip(chars): remove leading and trailing characters drawn from
the given class. -/
def stripChars (p : Char → Bool) (l : List Char) : List Char :=
  ((l.dropWhile p).reverse.dropWhile p).reverse

/-- The text of regex group(1): the matched uid substring rebuilt from its
three digit groups. -/
def mkUid (d1 d2 d3 : List Char) : List Char :=
  lbrace :: 'S' :: (d1 ++ ':' :: 'S' :: 'h' :: (d2 ++ ':' :: 'P' :: (d3 ++ [rbrace])))

/-- Parsing of one payload line in apply_changes (lines 166-179): regex search,
then uid.strip("\x7b\x7d").split(":"), integer conversion of the tag-stripped
parts inside try/except, and group(2).strip() as the replacement text. Any
failure yields none, which the loop skips. -/
def parseEditLine (line : List Char) : Option ((Nat × Nat × Nat) × List Char) :=
  match searchEdit line with
  | none => none
  | some ((d1, d2, d3), capture) =>
    let parts := (stripChars isBraceChar (mkUid d1 d2 d3)).splitOn ':'
    match parts[0]?, parts[1]?, parts[2]? with
    | some a, some b, some c =>
      match pyInt? (a.drop 1), pyInt? (b.drop 2), pyInt? (c.drop 1) with
      | some s, some sh, some p => some ((s, sh, p), pyStrip capture)
      | _, _, _ => none
    | _, _, _ => none

/-- A computed edits mapping keyed by the positional triple. -/
abbrev Updates := Nat × Nat × Nat → Option (List Char)

/-- Dictionary insertion updates[(s_idx, sh_idx, p_idx)] = new_text:
later writes overwrite earlier ones. -/
def updInsert (m : Updates) (k : Nat × Nat × Nat) (t : List Char) : Updates :=
  fun k' => if k' = k then some t else m k'

/-- One iteration of the parse loop of apply_changes over a payload line. -/
def updStep (m : Updates) (line : List Char) : Updates :=
  match parseEditLine line with
  | none => m
  | some (k, t) => updInsert m k t

/-- The updates dictionary built from a list of payload lines. -/
def buildUpdatesFromLines (ls : List (List Char)) : Updates :=
  ls.foldl updStep (fun _ => none)

/-- The updates dictionary of apply_changes: parse modified_text.split('\n'). -/
def buildUpdates (payload : List Char) : Updates :=
  buildUpdatesFromLines (payload.splitOn '\n')

/-- The per-paragraph write of apply_changes (lines 187-193): with at least one
run, first run's text becomes the replacement and every later run's text is
emptied (styles untouched); with no runs, a single fresh run is added. -/
def patchParagraph (t : List Char) (p : Paragraph) : Paragraph :=
  match p.runs with
  | [] => ⟨[⟨t, 0⟩]⟩
  | r :: rs => ⟨{ r with text := t } :: rs.map (fun r' => { r' with text := [] })⟩

/-- Apply an optional replacement to one paragraph: absent key leaves it. -/
def patchPara (upd : Option (List Char)) (p : Paragraph) : Paragraph :=
  match upd with
  | none => p
  | some t => patchParagraph t p

/-- Paragraph loop of the apply pass, carrying the enumerate counter. -/
def applyParas (u : Updates) (si shi : Nat) : Nat → List Paragraph → List Paragraph
  | _, [] => []
  | pi, p :: ps => patchPara (u (si, shi, pi)) p :: applyParas u si shi (pi + 1) ps

/-- Shape loop of the apply pass: frameless shapes pass through unchanged but
still advance the shape counter. -/
def applyShapes (u : Updates) (si : Nat) : Nat → List Shape → List Shape
  | _, [] => []
  | shi, sh :: shs =>
    (match sh.textFrame with
     | none => sh
     | some ps => ⟨some (applyParas u si shi 0 ps)⟩) :: applyShapes u si (shi + 1) shs

/-- Slide loop of the apply pass. -/
def applySlides (u : Updates) : Nat → List Slide → List Slide
  | _, [] => []
  | si, sl :: sls => ⟨applyShapes u si 0 sl.shapes⟩ :: applySlides u (si + 1) sls

/-- The traversal half of apply_changes, for a given updates mapping. -/
def applyUpdates (prs : Document) (u : Updates) : Document := applySlides u 0 prs

/-- apply_changes of src/main.py (lines 164-194). -/
def apply_changes (prs : Document) (modified_text : List Char) : Document :=
  applyUpdates prs (buildUpdates modified_text)

/-- The paragraph addressed by a positional triple, when it exists. -/
def paraAt (prs : Document) (si shi pi : Nat) : Option Paragraph :=
  match prs[si]? with
  | none => none
  | some sl =>
    match sl.shapes[shi]? with
    | none => none
    | some sh =>
      match sh.textFrame with
      | none => none
      | some ps => ps[pi]?

/-- Modelled after the wording of spec §4.1: the addressable units, one pair
(positional triple, trimmed text) per paragraph whose trimmed run-concatenated
text is nonempty, in slide/shape/paragraph document order, with frameless
shapes and empty paragraphs consuming their ordinal slots. Paragraph level. -/
def pairsParas (si shi : Nat) : Nat → List Paragraph → List ((Nat × Nat × Nat) × List Char)
  | _, [] => []
  | pi, p :: ps =>
    (if pyStrip (paragraphText p) ≠ []
      then [((si, shi, pi), pyStrip (paragraphText p))] else []) ++
    pairsParas si shi (pi + 1) ps

/-- Addressable units, shape level (spec §4.1 wording). -/
def pairsShapes (si : Nat) : Nat → List Shape → List ((Nat × Nat × Nat) × List Char)
  | _, [] => []
  | shi, sh :: shs =>
    (match sh.textFrame with
     | none => []
     | some ps => pairsParas si shi 0 ps) ++ pairsShapes si (shi + 1) shs

/-- Addressable units, slide level (spec §4.1 wording). -/
def pairsSlides : Nat → List Slide → List ((Nat × Nat × Nat) × List Char)
  | _, [] => []
  | si, sl :: sls => pairsShapes si 0 sl.shapes ++ pairsSlides (si + 1) sls

/-- All addressable units of a document with their trimmed text. -/
def docPairs (prs : Document) : List ((Nat × Nat × Nat) × List Char) := pairsSlides 0 prs

/-- End-to-end transform step of the generator tab: run the stream loop, apply
the fail-safe, and mutate a document only when the final payload is nonblank
(the "if slide_content.strip():" guard); none records that no document
mutation happened. -/
def runTransform (sep : List Char) (frags : List (List Char)) (prs : Document) :
    Option Document :=
  let payload := finalPayload (runStream sep frags)
  if pyStrip payload ≠ [] then some (apply_changes prs payload) else none

/-- A small sample document: one slide holding a two-run paragraph, an empty
paragraph, a frameless shape, and a further shape with a one-run paragraph. -/
def exDoc : Document :=
  [⟨[⟨some [⟨[⟨" Hello world ".data, 3⟩, ⟨"!".data, 4⟩]⟩, ⟨[]⟩]⟩, ⟨none⟩,
     ⟨some [⟨[⟨"Tail".data, 9⟩]⟩]⟩]⟩]

/-- A document whose single paragraph carries an embedded newline in its run
text. -/
def exDocNL : Document := [⟨[⟨some [⟨[⟨"a\nb".data, 0⟩]⟩]⟩]⟩]

/-! ### Generic whitespace-stripping lemmas -/

theorem dropWhile_idem {α : Type} (p : α → Bool) (l : List α) :
    (l.dropWhile p).dropWhile p = l.dropWhile p := by
  induction l with
  | nil => rfl
  | cons c cs ih =>
    by_cases h : p c
    · simp [List.dropWhile_cons, h, ih]
    · simp [List.dropWhile_cons, h]

theorem dropWhile_eq_cons_head {α : Type} {p : α → Bool} {l : List α} {c : α} {r : List α}
    (h : l.dropWhile p = c :: r) : p c = false := by
  induction l with
  | nil => simp at h
  | cons d ds ih =>
    by_cases hd : p d
    · exact ih (by simpa [List.dropWhile_cons, hd] using h)
    · rw [List.dropWhile_cons, if_neg (by simp [hd])] at h
      cases h
      simpa using hd

theorem pyStrip_decomp (l : List Char) :
    ∃ w, l.dropWhile pyIsSpace = pyStrip l ++ w ∧ ∀ c ∈ w, pyIsSpace c = true := by
  refine ⟨((l.dropWhile pyIsSpace).reverse.takeWhile pyIsSpace).reverse, ?_, ?_⟩
  · have h := List.takeWhile_append_dropWhile (p := pyIsSpace)
      (l := (l.dropWhile pyIsSpace).reverse)
    have h2 := congrArg List.reverse h
    rw [List.reverse_append, List.reverse_reverse] at h2
    simp only [pyStrip]
    exact h2.symm
  · intro c hc
    rw [List.mem_reverse] at hc
    exact List.mem_takeWhile_imp hc

theorem pyStrip_dropWhile (l : List Char) :
    (pyStrip l).dropWhile pyIsSpace = pyStrip l := by
  obtain ⟨w, hw, -⟩ := pyStrip_decomp l
  have hidem := dropWhile_idem pyIsSpace l
  rw [hw] at hidem
  cases hst : pyStrip l with
  | nil => rfl
  | cons c r =>
    rw [hst, List.cons_append] at hidem
    have hc : pyIsSpace c = false := dropWhile_eq_cons_head hidem
    simp [List.dropWhile_cons, hc]

theorem pyStrip_idem (l : List Char) : pyStrip (pyStrip l) = pyStrip l := by
  have h1 : (pyStrip l).reverse.dropWhile pyIsSpace = (pyStrip l).reverse := by
    simp [pyStrip, List.reverse_reverse, dropWhile_idem]
  show ((((pyStrip l).dropWhile pyIsSpace).reverse).dropWhile pyIsSpace).reverse = pyStrip l
  rw [pyStrip_dropWhile, h1, List.reverse_reverse]

theorem pyStrip_ne_nil_of_mem {c : Char} {l : List Char}
    (hc : c ∈ l) (hws : pyIsSpace c = false) : pyStrip l ≠ [] := by
  intro hnil
  have h2 : (l.dropWhile pyIsSpace).reverse.dropWhile pyIsSpace = [] := by
    have := congrArg List.reverse hnil
    simpa [pyStrip] using this
  have hall : ∀ x ∈ l.dropWhile pyIsSpace, pyIsSpace x = true := by
    intro x hx
    have := List.dropWhile_eq_nil_iff.mp h2
    exact this x (List.mem_reverse.mpr hx)
  have hsplit := List.takeWhile_append_dropWhile (p := pyIsSpace) (l := l)
  rw [← hsplit] at hc
  rcases List.mem_append.mp hc with h | h
  · exact absurd (List.mem_takeWhile_imp h) (by simp [hws])
  · exact absurd (hall c h) (by simp [hws])

theorem pyStrip_nil : pyStrip [] = [] := rfl

/-! ### Decimal digit lemmas -/

theorem digitChar_isDigit {d : Nat} (h : d < 10) : (digitChar d).isDigit = true := by
  interval_cases d <;> decide

theorem digitChar_toNat {d : Nat} (h : d < 10) : (digitChar d).toNat = 48 + d := by
  interval_cases d <;> decide

theorem natDigitsAux_fuel : ∀ (n f1 f2 : Nat), n < f1 → n < f2 →
    natDigitsAux f1 n = natDigitsAux f2 n := by
  intro n
  induction n using Nat.strong_induction_on with
  | _ n ih =>
    intro f1 f2 h1 h2
    cases f1 with
    | zero => omega
    | succ g1 =>
      cases f2 with
      | zero => omega
      | succ g2 =>
        simp only [natDigitsAux]
        by_cases h : n < 10
        · simp [h]
        · simp only [if_neg h]
          have hd : n / 10 < n := Nat.div_lt_self (by omega) (by omega)
          rw [ih (n / 10) hd g1 g2 (by omega) (by omega)]

theorem natDigits_lt (n : Nat) (h : n < 10) : natDigits n = [digitChar n] := by
  simp [natDigits, natDigitsAux, h]

theorem natDigitsAux_succ (fuel n : Nat) :
    natDigitsAux (fuel + 1) n =
      if n < 10 then [digitChar n]
      else natDigitsAux fuel (n / 10) ++ [digitChar (n % 10)] := rfl

theorem natDigits_ge (n : Nat) (h : ¬n < 10) :
    natDigits n = natDigits (n / 10) ++ [digitChar (n % 10)] := by
  rw [natDigits, natDigitsAux_succ, if_neg h,
    natDigitsAux_fuel (n / 10) n (n / 10 + 1) (Nat.div_lt_self (by omega) (by omega)) (by omega)]
  rfl

theorem natDigits_all_digit : ∀ (n : Nat), ∀ c ∈ natDigits n, c.isDigit = true := by
  intro n
  induction n using Nat.strong_induction_on with
  | _ n ih =>
    intro c hc
    by_cases h : n < 10
    · rw [natDigits_lt n h] at hc
      rcases List.mem_singleton.mp hc with rfl
      exact digitChar_isDigit h
    · rw [natDigits_ge n h] at hc
      rcases List.mem_append.mp hc with h1 | h1
      · exact ih (n / 10) (Nat.div_lt_self (by omega) (by omega)) c h1
      · rcases List.mem_singleton.mp h1 with rfl
        exact digitChar_isDigit (Nat.mod_lt _ (by omega))

theorem natDigits_ne_nil (n : Nat) : natDigits n ≠ [] := by
  by_cases h : n < 10
  · rw [natDigits_lt n h]; simp
  · rw [natDigits_ge n h]; simp

theorem digitsVal_append_single (a : List Char) (c : Char) :
    digitsVal (a ++ [c]) = 10 * digitsVal a + (c.toNat - 48) := by
  simp [digitsVal, List.foldl_append]

theorem digitsVal_natDigits : ∀ (n : Nat), digitsVal (natDigits n) = n := by
  intro n
  induction n using Nat.strong_induction_on with
  | _ n ih =>
    by_cases h : n < 10
    · rw [natDigits_lt n h]
      simp [digitsVal, digitChar_toNat h]
    · rw [natDigits_ge n h, digitsVal_append_single,
        ih (n / 10) (Nat.div_lt_self (by omega) (by omega)),
        digitChar_toNat (Nat.mod_lt _ (by omega))]
      omega

/-! ### takeWhile and dropWhile over a satisfied block -/

theorem takeWhile_block {α : Type} (p : α → Bool) (d : List α) (c : α) (r : List α)
    (hd : ∀ x ∈ d, p x = true) (hc : p c = false) :
    (d ++ c :: r).takeWhile p = d := by
  induction d with
  | nil => simp [List.takeWhile_cons, hc]
  | cons x xs ih =>
    have hx : p x = true := hd x (by simp)
    have h1 : (x :: (xs ++ c :: r)).takeWhile p = x :: ((xs ++ c :: r).takeWhile p) := by
      simp [List.takeWhile_cons, hx]
    rw [List.cons_append, h1, ih (fun y hy => hd y (by simp [hy]))]

theorem dropWhile_block {α : Type} (p : α → Bool) (d : List α) (c : α) (r : List α)
    (hd : ∀ x ∈ d, p x = true) (hc : p c = false) :
    (d ++ c :: r).dropWhile p = c :: r := by
  induction d with
  | nil => simp [List.dropWhile_cons, hc]
  | cons x xs ih =>
    have hx : p x = true := hd x (by simp)
    have h1 : (x :: (xs ++ c :: r)).dropWhile p = (xs ++ c :: r).dropWhile p := by
      simp [List.dropWhile_cons, hx]
    rw [List.cons_append, h1]
    exact ih (fun y hy => hd y (by simp [hy]))

/-! ### Substring occurrence lemmas -/

theorem leadsWith_nil_iff (s : List Char) : leadsWith s [] = true ↔ s = [] := by
  cases s <;> simp [leadsWith]

theorem leadsWith_append_self (a b : List Char) : leadsWith a (a ++ b) = true := by
  induction a with
  | nil => rfl
  | cons c cs ih => simp [leadsWith, ih]

theorem leadsWith_length_le {s l : List Char} (h : leadsWith s l = true) :
    s.length ≤ l.length := by
  induction s generalizing l with
  | nil => simp
  | cons c cs ih =>
    cases l with
    | nil => simp [leadsWith] at h
    | cons d ds =>
      simp only [leadsWith, Bool.and_eq_true] at h
      have := ih h.2
      simp only [List.length_cons]
      omega

theorem leadsWith_extend {s l : List Char} (e : List Char) (h : leadsWith s l = true) :
    leadsWith s (l ++ e) = true := by
  induction s generalizing l with
  | nil => rfl
  | cons c cs ih =>
    cases l with
    | nil => simp [leadsWith] at h
    | cons d ds =>
      simp only [List.cons_append, leadsWith, Bool.and_eq_true] at h ⊢
      exact ⟨h.1, ih h.2⟩

theorem leadsWith_of_append {s l e : List Char} (h : leadsWith s (l ++ e) = true)
    (hle : s.length ≤ l.length) : leadsWith s l = true := by
  induction s generalizing l with
  | nil => rfl
  | cons c cs ih =>
    cases l with
    | nil => simp at hle
    | cons d ds =>
      simp only [List.cons_append, leadsWith, Bool.and_eq_true] at h ⊢
      exact ⟨h.1, ih h.2 (by simpa using hle)⟩

theorem findSub_spec {s t : List Char} {i : Nat} (h : findSub s t = some i) :
    leadsWith s (t.drop i) = true ∧ ∀ k < i, leadsWith s (t.drop k) = false := by
  induction t generalizing i with
  | nil =>
    simp only [findSub] at h
    by_cases hl : leadsWith s [] = true
    · rw [if_pos hl] at h
      cases h
      exact ⟨hl, fun k hk => absurd hk (Nat.not_lt_zero k)⟩
    · rw [if_neg hl] at h
      cases h
  | cons c rest ih =>
    simp only [findSub] at h
    by_cases hl : leadsWith s (c :: rest) = true
    · rw [if_pos hl] at h
      cases h
      exact ⟨by simpa using hl, fun k hk => absurd hk (Nat.not_lt_zero k)⟩
    · rw [if_neg hl] at h
      cases hf : findSub s rest with
      | none => rw [hf] at h; simp at h
      | some j =>
        rw [hf] at h
        simp only [Option.map_some'] at h
        cases h
        obtain ⟨h1, h2⟩ := ih hf
        refine ⟨by simpa [List.drop_succ_cons] using h1, ?_⟩
        intro k hk
        cases k with
        | zero =>
          rw [List.drop_zero]
          simpa using hl
        | succ k' =>
          simpa [List.drop_succ_cons] using h2 k' (by omega)

theorem findSub_eq_some {s t : List Char} {i : Nat}
    (h1 : leadsWith s (t.drop i) = true)
    (h2 : ∀ k < i, leadsWith s (t.drop k) = false) :
    findSub s t = some i := by
  induction t generalizing i with
  | nil =>
    have hl : leadsWith s [] = true := by simpa using h1
    have hi : i = 0 := by
      by_contra hne
      have h0 := h2 0 (by omega)
      rw [List.drop_nil] at h0
      rw [h0] at hl
      exact absurd hl (by simp)
    subst hi
    simp [findSub, hl]
  | cons c rest ih =>
    by_cases hl : leadsWith s (c :: rest) = true
    · have hi : i = 0 := by
        by_contra hne
        have h0 := h2 0 (by omega)
        rw [List.drop_zero] at h0
        rw [h0] at hl
        exact absurd hl (by simp)
      subst hi
      simp [findSub, hl]
    · have hi : i ≠ 0 := by
        intro h0
        subst h0
        rw [List.drop_zero] at h1
        exact hl h1
      obtain ⟨j, rfl⟩ : ∃ j, i = j + 1 := ⟨i - 1, by omega⟩
      have hrec := ih (by simpa [List.drop_succ_cons] using h1)
        (fun k hk => by simpa [List.drop_succ_cons] using h2 (k + 1) (by omega))
      simp [findSub, hl, hrec]

theorem findSub_le_length {s t : List Char} {i : Nat} (h : findSub s t = some i) :
    i ≤ t.length := by
  induction t generalizing i with
  | nil =>
    simp only [findSub] at h
    by_cases hl : leadsWith s [] = true
    · rw [if_pos hl] at h; cases h; simp
    · rw [if_neg hl] at h; cases h
  | cons c rest ih =>
    simp only [findSub] at h
    by_cases hl : leadsWith s (c :: rest) = true
    · rw [if_pos hl] at h; cases h; simp
    · rw [if_neg hl] at h
      cases hf : findSub s rest with
      | none => rw [hf] at h; simp at h
      | some j =>
        rw [hf] at h
        simp only [Option.map_some'] at h
        cases h
        have := ih hf
        simp only [List.length_cons]
        omega

theorem findSub_bound {s t : List Char} {i : Nat} (h : findSub s t = some i) :
    i + s.length ≤ t.length := by
  have h1 := (findSub_spec h).1
  have h2 := leadsWith_length_le h1
  have h3 := findSub_le_length h
  rw [List.length_drop] at h2
  omega

theorem findSub_isSome_of_leadsWith {s t : List Char} {k : Nat}
    (h : leadsWith s (t.drop k) = true) : (findSub s t).isSome = true := by
  induction t generalizing k with
  | nil =>
    have hs : leadsWith s [] = true := by simpa using h
    simp [findSub, hs]
  | cons c rest ih =>
    by_cases hl : leadsWith s (c :: rest) = true
    · simp [findSub, hl]
    · cases k with
      | zero => rw [List.drop_zero] at h; exact absurd h hl
      | succ k' =>
        have hrec := ih (k := k') (by simpa [List.drop_succ_cons] using h)
        simp only [findSub, if_neg hl]
        cases hf : findSub s rest with
        | none => rw [hf] at hrec; simp at hrec
        | some j => simp

theorem findSub_eq_none {s t : List Char} (h : findSub s t = none) :
    ∀ k, leadsWith s (t.drop k) = false := by
  intro k
  by_contra hx
  simp only [Bool.not_eq_false] at hx
  have := findSub_isSome_of_leadsWith hx
  rw [h] at this
  simp at this

theorem drop_append_le {α : Type} (l₁ l₂ : List α) : ∀ {n : Nat}, n ≤ l₁.length →
    (l₁ ++ l₂).drop n = l₁.drop n ++ l₂ := by
  induction l₁ with
  | nil =>
    intro n hn
    have hn0 : n = 0 := Nat.le_zero.mp hn
    subst hn0
    simp
  | cons c cs ih =>
    intro n hn
    cases n with
    | zero => simp
    | succ m =>
      simp only [List.cons_append, List.drop_succ_cons]
      exact ih (by simpa using hn)

theorem findSub_append_first {s p e : List Char} {j : Nat}
    (h : findSub s p = some j) : findSub s (p ++ e) = some j := by
  obtain ⟨h1, h2⟩ := findSub_spec h
  have hb := findSub_bound h
  apply findSub_eq_some
  · rw [drop_append_le p e (by omega)]
    exact leadsWith_extend _ h1
  · intro k hk
    rw [drop_append_le p e (by omega)]
    by_contra hx
    simp only [Bool.not_eq_false] at hx
    have hp : leadsWith s (p.drop k) = true := leadsWith_of_append hx (by
      rw [List.length_drop]
      omega)
    rw [h2 k hk] at hp
    exact absurd hp (by simp)

/-! ### Python split lemmas -/

theorem pySplitAux_succ (sep : List Char) (fuel : Nat) (hay : List Char) :
    pySplitAux sep (fuel + 1) hay =
      match findSub sep hay with
      | none => [hay]
      | some i => hay.take i :: pySplitAux sep fuel (hay.drop (i + sep.length)) := rfl

theorem pySplitAux_fuel {sep : List Char} (hs : sep ≠ []) :
    ∀ (f1 f2 : Nat) (hay : List Char), hay.length < f1 → hay.length < f2 →
    pySplitAux sep f1 hay = pySplitAux sep f2 hay := by
  intro f1
  induction f1 with
  | zero => intro f2 hay h1 h2; omega
  | succ g1 ih =>
    intro f2 hay h1 h2
    cases f2 with
    | zero => omega
    | succ g2 =>
      rw [pySplitAux_succ, pySplitAux_succ]
      cases hf : findSub sep hay with
      | none => rfl
      | some i =>
        have hb := findSub_bound hf
        have hsl : 1 ≤ sep.length := List.length_pos.mpr hs
        have hlen1 : (hay.drop (i + sep.length)).length < g1 := by
          rw [List.length_drop]; omega
        have hlen2 : (hay.drop (i + sep.length)).length < g2 := by
          rw [List.length_drop]; omega
        simp only []
        rw [ih g2 (hay.drop (i + sep.length)) hlen1 hlen2]

theorem pySplit_none {sep hay : List Char} (hf : findSub sep hay = none) :
    pySplit sep hay = [hay] := by
  rw [pySplit, pySplitAux_succ, hf]

theorem pySplit_cons {sep hay : List Char} {i : Nat} (hs : sep ≠ [])
    (hf : findSub sep hay = some i) :
    pySplit sep hay = hay.take i :: pySplit sep (hay.drop (i + sep.length)) := by
  rw [pySplit, pySplitAux_succ, hf]
  simp only []
  congr 1
  apply pySplitAux_fuel hs
  · have hb := findSub_bound hf
    have hsl : 1 ≤ sep.length := List.length_pos.mpr hs
    rw [List.length_drop]
    omega
  · exact Nat.lt_succ_self _

theorem pySplit_payload {sep tb : List Char} {i : Nat} (hs : sep ≠ [])
    (hf : findSub sep tb = some i) :
    1 < (pySplit sep tb).length ∧
    (pySplit sep tb).getD 1 [] =
      (tb.drop (i + sep.length)).take
        ((findSub sep (tb.drop (i + sep.length))).getD (tb.drop (i + sep.length)).length) := by
  rw [pySplit_cons hs hf]
  cases hr : findSub sep (tb.drop (i + sep.length)) with
  | none =>
    rw [pySplit_none hr]
    refine ⟨by simp, ?_⟩
    simp only [List.getD_cons_succ, List.getD_cons_zero, Option.getD_none]
    rw [List.take_length]
  | some k =>
    rw [pySplit_cons hs hr]
    refine ⟨by simp, ?_⟩
    simp only [List.getD_cons_succ, List.getD_cons_zero, Option.getD_some]

/-! ### Stream-loop step lemmas -/

theorem findSub_nil {s : List Char} (hs : s ≠ []) : findSub s [] = none := by
  cases s with
  | nil => exact absurd rfl hs
  | cons c cs => rfl

theorem findSub_nil_sep (t : List Char) : findSub [] t = some 0 := by
  cases t <;> rfl

theorem pstep_thinking {sep : List Char} {st : PState} {c : List Char}
    (hm : st.mode = Mode.Thinking) (hf : findSub sep (st.thinking ++ c) = none) :
    pstep sep st c = ⟨Mode.Thinking, st.thinking ++ c, st.slide⟩ := by
  cases st with
  | mk m tb sl =>
    cases hm
    simp [pstep, containsSub, hf]

theorem pstep_transition {sep : List Char} {st : PState} {c : List Char} {i : Nat}
    (hsep : sep ≠ []) (hm : st.mode = Mode.Thinking)
    (hf : findSub sep (st.thinking ++ c) = some i) :
    pstep sep st c =
      ⟨Mode.Writing, st.thinking ++ c,
        st.slide ++
          ((st.thinking ++ c).drop (i + sep.length)).take
            ((findSub sep ((st.thinking ++ c).drop (i + sep.length))).getD
              ((st.thinking ++ c).drop (i + sep.length)).length)⟩ := by
  obtain ⟨hlen, hval⟩ := pySplit_payload hsep hf
  cases st with
  | mk m tb sl =>
    cases hm
    simp only [pstep]
    rw [if_pos (by simp [containsSub, hf])]
    simp only [PState.mk.injEq, true_and]
    rw [if_pos hlen, hval]

theorem pstep_writing {sep : List Char} {st : PState} {c : List Char}
    (hm : st.mode = Mode.Writing) :
    pstep sep st c = ⟨Mode.Writing, st.thinking, st.slide ++ c⟩ := by
  cases st with
  | mk m tb sl =>
    cases hm
    rfl

theorem finalPayload_writing {st : PState} (hm : st.mode = Mode.Writing) :
    finalPayload st = st.slide := by
  cases st with
  | mk m tb sl =>
    cases hm
    rfl

theorem findSub_none_of_append {s x e : List Char} (h : findSub s (x ++ e) = none) :
    findSub s x = none := by
  cases hf : findSub s x with
  | none => rfl
  | some k =>
    have h1 := (findSub_spec hf).1
    have h2 : leadsWith s ((x ++ e).drop k) = true := by
      by_cases hk : k ≤ x.length
      · rw [drop_append_le x e hk]
        exact leadsWith_extend _ h1
      · have hx : x.drop k = [] := List.drop_eq_nil_of_le (by omega)
        rw [hx] at h1
        have hs0 : s = [] := (leadsWith_nil_iff s).mp h1
        subst hs0
        rfl
    have h3 := findSub_isSome_of_leadsWith h2
    rw [h] at h3
    simp at h3

theorem no_second_occurrence {sep q e : List Char} {i : Nat}
    (htwo : hasTwoSub sep (q ++ e) = false) (hf : findSub sep q = some i) :
    findSub sep (q.drop (i + sep.length)) = none := by
  have hb := findSub_bound hf
  have hful : findSub sep (q ++ e) = some i := findSub_append_first hf
  simp only [hasTwoSub, hful] at htwo
  rw [drop_append_le q e (by omega)] at htwo
  apply findSub_none_of_append (e := e)
  cases hx : findSub sep (q.drop (i + sep.length) ++ e) with
  | none => rfl
  | some k =>
    rw [containsSub, hx] at htwo
    simp at htwo

/-- The central invariant of the stream loop: after consuming any fragment
list on top of an already-consumed prefix p, either the separator has never
occurred (state is THINKING with the whole text buffered and empty payload) or
it has (state is WRITING and, provided the full text holds no second
separator occurrence, the payload is exactly the text after the first one). -/
theorem stream_invariant {sep : List Char} (hsep : sep ≠ []) :
    ∀ (fs : List (List Char)) (p : List Char) (st : PState),
      hasTwoSub sep (p ++ fs.flatten) = false →
      ((findSub sep p = none ∧ st = ⟨Mode.Thinking, p, []⟩) ∨
        (∃ j, findSub sep p = some j ∧ st.mode = Mode.Writing ∧
          st.slide = p.drop (j + sep.length))) →
      ((findSub sep (p ++ fs.flatten) = none ∧
          fs.foldl (pstep sep) st = ⟨Mode.Thinking, p ++ fs.flatten, []⟩) ∨
        (∃ j, findSub sep (p ++ fs.flatten) = some j ∧
          (fs.foldl (pstep sep) st).mode = Mode.Writing ∧
          (fs.foldl (pstep sep) st).slide = (p ++ fs.flatten).drop (j + sep.length))) := by
  intro fs
  induction fs with
  | nil =>
    intro p st htwo hinv
    simpa using hinv
  | cons c fs ih =>
    intro p st htwo hinv
    have hassoc : p ++ (c :: fs).flatten = (p ++ c) ++ fs.flatten := by
      rw [List.flatten_cons, ← List.append_assoc]
    rw [hassoc] at htwo ⊢
    rw [List.foldl_cons]
    apply ih (p ++ c) (pstep sep st c) htwo
    rcases hinv with ⟨hnone, rfl⟩ | ⟨j, hj, hmode, hslide⟩
    · cases hfc : findSub sep (p ++ c) with
      | none =>
        left
        exact ⟨rfl, pstep_thinking rfl hfc⟩
      | some i =>
        right
        have hrest : findSub sep ((p ++ c).drop (i + sep.length)) = none :=
          no_second_occurrence htwo hfc
        rw [pstep_transition hsep rfl hfc]
        refine ⟨i, rfl, rfl, ?_⟩
        simp only [hrest, Option.getD_none, List.take_length, List.nil_append]
    · right
      have hb := findSub_bound hj
      have hfc : findSub sep (p ++ c) = some j := findSub_append_first hj
      rw [pstep_writing hmode]
      refine ⟨j, hfc, rfl, ?_⟩
      simp only []
      rw [hslide, drop_append_le p c (by omega)]

/-- Whole-run corollary of the invariant, started from the loop entry state. -/
theorem runStream_spec {sep text : List Char} (hsep : sep ≠ [])
    (htwo : hasTwoSub sep text = false) (fs : List (List Char))
    (hfs : fs.flatten = text) :
    (findSub sep text = none ∧ runStream sep fs = ⟨Mode.Thinking, text, []⟩) ∨
    (∃ j, findSub sep text = some j ∧ (runStream sep fs).mode = Mode.Writing ∧
      (runStream sep fs).slide = text.drop (j + sep.length)) := by
  have h := stream_invariant hsep fs [] initPS
    (by rw [List.nil_append, hfs]; exact htwo)
    (Or.inl ⟨findSub_nil hsep, rfl⟩)
  rw [List.nil_append, hfs] at h
  exact h

/-! ### Lifting substring containment from a line to the joined text -/

theorem intercalate_cons_of_ne_nil (x : Char) (l : List Char) (t : List (List Char))
    (ht : t ≠ []) :
    List.intercalate [x] (l :: t) = l ++ x :: List.intercalate [x] t := by
  cases t with
  | nil => exact absurd rfl ht
  | cons h2 t2 =>
    simp [List.intercalate, List.intersperse_cons_cons]

theorem intercalate_single (x : Char) (l : List Char) :
    List.intercalate [x] [l] = l := by
  simp [List.intercalate]

theorem mem_intercalate_decomp {l : List Char} {ls : List (List Char)} (x : Char)
    (h : l ∈ ls) : ∃ a b, List.intercalate [x] ls = a ++ (l ++ b) := by
  obtain ⟨s, t, rfl⟩ := List.append_of_mem h
  clear h
  induction s with
  | nil =>
    cases t with
    | nil => exact ⟨[], [], by simp [intercalate_single]⟩
    | cons t1 ts =>
      refine ⟨[], x :: List.intercalate [x] (t1 :: ts), ?_⟩
      rw [List.nil_append, intercalate_cons_of_ne_nil x l (t1 :: ts) (by simp)]
      simp
  | cons s1 ss ih =>
    obtain ⟨a, b, hab⟩ := ih
    refine ⟨s1 ++ x :: a, b, ?_⟩
    rw [List.cons_append, intercalate_cons_of_ne_nil x s1 (ss ++ l :: t) (by simp), hab]
    simp

theorem containsSub_of_part {s l : List Char} (a b : List Char)
    (h : containsSub s l = true) : containsSub s (a ++ (l ++ b)) = true := by
  rw [containsSub] at h
  cases hf : findSub s l with
  | none => rw [hf] at h; simp at h
  | some i =>
    by_cases hsnil : s = []
    · subst hsnil
      simp [containsSub, findSub_nil_sep]
    · have h1 := (findSub_spec hf).1
      have hle : i ≤ l.length := findSub_le_length hf
      have h2 : leadsWith s ((a ++ (l ++ b)).drop (a.length + i)) = true := by
        rw [List.drop_append, drop_append_le l b hle]
        exact leadsWith_extend _ h1
      exact findSub_isSome_of_leadsWith h2

theorem containsSub_of_line {s tb l : List Char} (h : l ∈ tb.splitOn '\n')
    (hc : containsSub s l = true) : containsSub s tb = true := by
  obtain ⟨a, b, hab⟩ := mem_intercalate_decomp '\n' h
  have h2 := containsSub_of_part a b hc
  rw [← hab, List.intercalate_splitOn tb '\n'] at h2
  exact h2

theorem leadsWith_single_mem {ch : Char} {x : List Char}
    (h : leadsWith [ch] x = true) : ch ∈ x := by
  cases x with
  | nil => simp [leadsWith] at h
  | cons d ds =>
    simp only [leadsWith, Bool.and_eq_true] at h
    have hd : ch = d := by simpa using h.1
    simp [hd]

theorem mem_of_containsSub_single {ch : Char} {l : List Char}
    (h : containsSub [ch] l = true) : ch ∈ l := by
  rw [containsSub] at h
  cases hf : findSub [ch] l with
  | none => rw [hf] at h; simp at h
  | some i =>
    have h1 := (findSub_spec hf).1
    exact List.mem_of_mem_drop (leadsWith_single_mem h1)

/-! ### Positional lemmas for the apply pass -/

theorem applyParas_getElem (u : Updates) (si shi : Nat) :
    ∀ (ps : List Paragraph) (n d : Nat),
      (applyParas u si shi n ps)[d]? =
        (ps[d]?).map (fun p => patchPara (u (si, shi, n + d)) p) := by
  intro ps
  induction ps with
  | nil => intro n d; simp [applyParas]
  | cons p ps ih =>
    intro n d
    cases d with
    | zero => simp [applyParas]
    | succ d' =>
      have hn : n + (d' + 1) = (n + 1) + d' := by omega
      simp only [applyParas, List.getElem?_cons_succ, hn]
      exact ih (n + 1) d'

theorem applyShapes_getElem (u : Updates) (si : Nat) :
    ∀ (shs : List Shape) (n d : Nat),
      (applyShapes u si n shs)[d]? =
        (shs[d]?).map (fun sh =>
          match sh.textFrame with
          | none => sh
          | some ps => ⟨some (applyParas u si (n + d) 0 ps)⟩) := by
  intro shs
  induction shs with
  | nil => intro n d; simp [applyShapes]
  | cons sh shs ih =>
    intro n d
    cases d with
    | zero => simp [applyShapes]
    | succ d' =>
      have hn : n + (d' + 1) = (n + 1) + d' := by omega
      simp only [applyShapes, List.getElem?_cons_succ, hn]
      exact ih (n + 1) d'

theorem applySlides_getElem (u : Updates) :
    ∀ (ss : List Slide) (n d : Nat),
      (applySlides u n ss)[d]? =
        (ss[d]?).map (fun sl => ⟨applyShapes u (n + d) 0 sl.shapes⟩) := by
  intro ss
  induction ss with
  | nil => intro n d; simp [applySlides]
  | cons sl ss ih =>
    intro n d
    cases d with
    | zero => simp [applySlides]
    | succ d' =>
      have hn : n + (d' + 1) = (n + 1) + d' := by omega
      simp only [applySlides, List.getElem?_cons_succ, hn]
      exact ih (n + 1) d'

theorem paraAt_applyUpdates (prs : Document) (u : Updates) (si shi pi : Nat) :
    paraAt (applyUpdates prs u) si shi pi =
      (paraAt prs si shi pi).map (patchPara (u (si, shi, pi))) := by
  rw [paraAt, paraAt, applyUpdates, applySlides_getElem]
  cases hsl : prs[si]? with
  | none => simp
  | some sl =>
    simp only [Option.map_some', Nat.zero_add]
    rw [applyShapes_getElem]
    cases hsh : sl.shapes[shi]? with
    | none => simp
    | some sh =>
      simp only [Option.map_some', Nat.zero_add]
      cases htf : sh.textFrame with
      | none => simp [htf]
      | some ps =>
        simp only [htf]
        rw [applyParas_getElem]
        simp [Nat.zero_add]

theorem paragraphText_patch (t : List Char) (p : Paragraph) :
    paragraphText (patchParagraph t p) = t := by
  cases p with
  | mk runs =>
    cases runs with
    | nil => simp [patchParagraph, paragraphText]
    | cons r rs =>
      simp only [patchParagraph, paragraphText, List.map_cons, List.flatten_cons]
      have h : ((rs.map (fun r' => ({ r' with text := [] } : Run))).map Run.text).flatten
          = [] := by
        induction rs with
        | nil => rfl
        | cons a as iha => simp [iha]
      rw [h, List.append_nil]

/-! ### The updates dictionary as a last-write-wins fold -/

theorem foldl_updStep_spec :
    ∀ (ls : List (List Char)) (m : Updates) (k : Nat × Nat × Nat),
      (ls.foldl updStep m) k =
        match ((ls.filterMap parseEditLine).filter (fun e => e.1 = k)).getLast? with
        | some e => some e.2
        | none => m k := by
  intro ls
  induction ls with
  | nil => intro m k; rfl
  | cons l ls ih =>
    intro m k
    rw [List.foldl_cons, ih]
    cases hp : parseEditLine l with
    | none => simp only [List.filterMap_cons, hp, updStep]
    | some e =>
      simp only [List.filterMap_cons, hp, updStep, updInsert]
      by_cases hk : e.1 = k
      · subst hk
        rw [List.filter_cons, if_pos rfl,
          if_pos (show decide (e.1 = e.1) = true by simp), List.getLast?_cons]
        cases hgl : ((ls.filterMap parseEditLine).filter (fun x => x.1 = e.1)).getLast? with
        | none => simp
        | some e' => simp
      · rw [List.filter_cons, if_neg (fun hkk => hk hkk.symm),
          if_neg (show ¬decide (e.1 = k) = true by simp [hk])]

/-! ### Congruence of the apply pass in the updates mapping -/

theorem applyParas_congr (u1 u2 : Updates) (si shi : Nat) :
    ∀ (ps : List Paragraph) (n : Nat),
      (∀ d p, ps[d]? = some p → u1 (si, shi, n + d) = u2 (si, shi, n + d)) →
      applyParas u1 si shi n ps = applyParas u2 si shi n ps := by
  intro ps
  induction ps with
  | nil => intro n h; rfl
  | cons p ps ih =>
    intro n h
    have h0 : u1 (si, shi, n) = u2 (si, shi, n) := by
      simpa using h 0 p (by simp)
    simp only [applyParas, h0]
    rw [ih (n + 1) (fun d p' hp' => by
      have hh := h (d + 1) p' (by simpa using hp')
      have hn : n + (d + 1) = (n + 1) + d := by omega
      rw [hn] at hh
      exact hh)]

theorem applyShapes_congr (u1 u2 : Updates) (si : Nat) :
    ∀ (shs : List Shape) (n : Nat),
      (∀ d sh, shs[d]? = some sh → ∀ ps, sh.textFrame = some ps →
        ∀ f p, ps[f]? = some p → u1 (si, n + d, f) = u2 (si, n + d, f)) →
      applyShapes u1 si n shs = applyShapes u2 si n shs := by
  intro shs
  induction shs with
  | nil => intro n h; rfl
  | cons sh shs ih =>
    intro n h
    simp only [applyShapes]
    have htail : applyShapes u1 si (n + 1) shs = applyShapes u2 si (n + 1) shs := by
      apply ih (n + 1)
      intro d sh' hd ps htf f p hp
      have hh := h (d + 1) sh' (by simpa using hd) ps htf f p hp
      have hn : n + (d + 1) = (n + 1) + d := by omega
      rw [hn] at hh
      exact hh
    rw [htail]
    cases htf : sh.textFrame with
    | none => simp only [htf]
    | some ps =>
      simp only [htf]
      have hps : applyParas u1 si n 0 ps = applyParas u2 si n 0 ps := by
        apply applyParas_congr
        intro f p hp
        simpa using h 0 sh (by simp) ps htf f p hp
      rw [hps]

theorem applySlides_congr (u1 u2 : Updates) :
    ∀ (ss : List Slide) (n : Nat),
      (∀ d sl, ss[d]? = some sl → ∀ e sh, sl.shapes[e]? = some sh →
        ∀ ps, sh.textFrame = some ps → ∀ f p, ps[f]? = some p →
        u1 (n + d, e, f) = u2 (n + d, e, f)) →
      applySlides u1 n ss = applySlides u2 n ss := by
  intro ss
  induction ss with
  | nil => intro n h; rfl
  | cons sl ss ih =>
    intro n h
    simp only [applySlides]
    have htail : applySlides u1 (n + 1) ss = applySlides u2 (n + 1) ss := by
      apply ih (n + 1)
      intro d sl' hd e sh he ps htf f p hp
      have hh := h (d + 1) sl' (by simpa using hd) e sh he ps htf f p hp
      have hn : n + (d + 1) = (n + 1) + d := by omega
      rw [hn] at hh
      exact hh
    rw [htail]
    have hsh : applyShapes u1 n 0 sl.shapes = applyShapes u2 n 0 sl.shapes := by
      apply applyShapes_congr
      intro e sh he ps htf f p hp
      have hh := h 0 sl (by simp) e sh he ps htf f p hp
      simpa using hh
    rw [hsh]

/-! ### The regex match against a formatted identifier -/

theorem takeWhile_of_all {α : Type} (p : α → Bool) (l : List α)
    (h : ∀ c ∈ l, p c = true) : l.takeWhile p = l := by
  induction l with
  | nil => rfl
  | cons c cs ih =>
    rw [List.takeWhile_cons, if_pos (by simp [h c (by simp)])]
    rw [ih (fun x hx => h x (by simp [hx]))]

theorem matchIdAt_fmt (si shi pi : Nat) (ws rest : List Char)
    (hws : ∀ c ∈ ws, pyIsSpace c = true) :
    matchIdAt (fmtId si shi pi ++ ws ++ '|' :: '|' :: rest) =
      some ((natDigits si, natDigits shi, natDigits pi),
        (rest.dropWhile pyIsSpace).takeWhile (fun c => c ≠ '\n')) := by
  have hcan : fmtId si shi pi ++ ws ++ '|' :: '|' :: rest =
      lbrace :: 'S' :: (natDigits si ++ ':' :: 'S' :: 'h' ::
        (natDigits shi ++ ':' :: 'P' ::
          (natDigits pi ++ rbrace :: (ws ++ '|' :: '|' :: rest)))) := by
    simp [fmtId, List.append_assoc]
  rw [hcan]
  have t1 := takeWhile_block Char.isDigit (natDigits si) ':'
    ('S' :: 'h' :: (natDigits shi ++ ':' :: 'P' ::
      (natDigits pi ++ rbrace :: (ws ++ '|' :: '|' :: rest))))
    (natDigits_all_digit si) (by decide)
  have w1 := dropWhile_block Char.isDigit (natDigits si) ':'
    ('S' :: 'h' :: (natDigits shi ++ ':' :: 'P' ::
      (natDigits pi ++ rbrace :: (ws ++ '|' :: '|' :: rest))))
    (natDigits_all_digit si) (by decide)
  have t2 := takeWhile_block Char.isDigit (natDigits shi) ':'
    ('P' :: (natDigits pi ++ rbrace :: (ws ++ '|' :: '|' :: rest)))
    (natDigits_all_digit shi) (by decide)
  have w2 := dropWhile_block Char.isDigit (natDigits shi) ':'
    ('P' :: (natDigits pi ++ rbrace :: (ws ++ '|' :: '|' :: rest)))
    (natDigits_all_digit shi) (by decide)
  have t3 := takeWhile_block Char.isDigit (natDigits pi) rbrace (ws ++ '|' :: '|' :: rest)
    (natDigits_all_digit pi) (by decide)
  have w3 := dropWhile_block Char.isDigit (natDigits pi) rbrace (ws ++ '|' :: '|' :: rest)
    (natDigits_all_digit pi) (by decide)
  have w4 := dropWhile_block pyIsSpace ws '|' ('|' :: rest) hws (by decide)
  simp [matchIdAt, t1, w1, t2, w2, t3, w3, w4, natDigits_ne_nil]

theorem searchEdit_cons_some {l : List Char}
    {r : (List Char × List Char × List Char) × List Char}
    (h : matchIdAt l = some r) : searchEdit l = some r := by
  cases l with
  | nil => simpa [searchEdit] using h
  | cons c cs => simp [searchEdit, h]

theorem searchEdit_isSome_of_drop {l : List Char} {q : Nat}
    (h : (matchIdAt (l.drop q)).isSome = true) : (searchEdit l).isSome = true := by
  induction l generalizing q with
  | nil =>
    rw [List.drop_nil] at h
    simp [matchIdAt] at h
  | cons c cs ih =>
    cases q with
    | zero =>
      rw [List.drop_zero] at h
      cases hm : matchIdAt (c :: cs) with
      | none => rw [hm] at h; simp at h
      | some r => simp [searchEdit, hm]
    | succ q' =>
      rw [List.drop_succ_cons] at h
      have hrec := ih h
      simp only [searchEdit]
      cases hm : matchIdAt (c :: cs) with
      | none => exact hrec
      | some r => simp

theorem matchIdAt_groups {l : List Char} {d1 d2 d3 cap : List Char}
    (h : matchIdAt l = some ((d1, d2, d3), cap)) :
    (d1 ≠ [] ∧ ∀ c ∈ d1, c.isDigit = true) ∧
    (d2 ≠ [] ∧ ∀ c ∈ d2, c.isDigit = true) ∧
    (d3 ≠ [] ∧ ∀ c ∈ d3, c.isDigit = true) := by
  unfold matchIdAt at h
  simp only [] at h
  repeat' split at h
  any_goals exact Option.noConfusion h
  rw [Option.some.injEq, Prod.mk.injEq] at h
  obtain ⟨hg, -⟩ := h
  rw [Prod.mk.injEq, Prod.mk.injEq] at hg
  obtain ⟨e1, e2, e3⟩ := hg
  subst e1
  subst e2
  subst e3
  refine ⟨⟨by assumption, fun c hc => List.mem_takeWhile_imp hc⟩,
    ⟨by assumption, fun c hc => List.mem_takeWhile_imp hc⟩,
    ⟨by assumption, fun c hc => List.mem_takeWhile_imp hc⟩⟩

theorem searchEdit_groups {l : List Char} {d1 d2 d3 cap : List Char}
    (h : searchEdit l = some ((d1, d2, d3), cap)) :
    (d1 ≠ [] ∧ ∀ c ∈ d1, c.isDigit = true) ∧
    (d2 ≠ [] ∧ ∀ c ∈ d2, c.isDigit = true) ∧
    (d3 ≠ [] ∧ ∀ c ∈ d3, c.isDigit = true) := by
  induction l with
  | nil => exact matchIdAt_groups (by simpa [searchEdit] using h)
  | cons c cs ih =>
    simp only [searchEdit] at h
    cases hm : matchIdAt (c :: cs) with
    | some r =>
      rw [hm] at h
      simp only [] at h
      cases h
      exact matchIdAt_groups hm
    | none =>
      rw [hm] at h
      exact ih h

/-! ### The uid string round trip inside parseEditLine -/

theorem isBraceChar_of_digit {c : Char} (h : c.isDigit = true) : isBraceChar c = false := by
  rw [isBraceChar]
  rw [Char.isDigit] at h
  simp only [Bool.or_eq_false_iff]
  constructor
  · simp only [decide_eq_false_iff_not]
    intro he
    subst he
    simp [lbrace] at h
  · simp only [decide_eq_false_iff_not]
    intro he
    subst he
    simp [rbrace] at h

theorem stripChars_mkUid (d1 d2 d3 : List Char)
    (h3ne : d3 ≠ []) (h3d : ∀ c ∈ d3, c.isDigit = true) :
    stripChars isBraceChar (mkUid d1 d2 d3) =
      'S' :: (d1 ++ ':' :: 'S' :: 'h' :: (d2 ++ ':' :: 'P' :: d3)) := by
  obtain ⟨ds, dl, rfl⟩ : ∃ ds dl, d3 = ds ++ [dl] := by
    rcases List.eq_nil_or_concat d3 with h | ⟨ds, dl, h⟩
    · exact absurd h h3ne
    · exact ⟨ds, dl, by simpa using h⟩
  have hdl : Char.isDigit dl = true := h3d dl (by simp)
  have hstep1 : (mkUid d1 d2 (ds ++ [dl])).dropWhile isBraceChar =
      ('S' :: (d1 ++ ':' :: 'S' :: 'h' :: (d2 ++ ':' :: 'P' :: (ds ++ [dl])))) ++ [rbrace] := by
    have hA : mkUid d1 d2 (ds ++ [dl]) =
        lbrace :: 'S' ::
          ((d1 ++ ':' :: 'S' :: 'h' :: (d2 ++ ':' :: 'P' :: (ds ++ [dl]))) ++ [rbrace]) := by
      simp [mkUid]
    rw [hA, List.dropWhile_cons, if_pos (by decide), List.dropWhile_cons,
      if_neg (by decide)]
    simp
  have hX : ('S' :: (d1 ++ ':' :: 'S' :: 'h' :: (d2 ++ ':' :: 'P' :: (ds ++ [dl])))) =
      ('S' :: (d1 ++ ':' :: 'S' :: 'h' :: (d2 ++ ':' :: 'P' :: ds))) ++ [dl] := by
    simp
  rw [stripChars, hstep1, List.reverse_append]
  simp only [List.reverse_singleton, List.singleton_append]
  rw [List.dropWhile_cons, if_pos (by decide)]
  rw [hX, List.reverse_append]
  simp only [List.reverse_singleton, List.singleton_append]
  rw [List.dropWhile_cons, if_neg (by simp [isBraceChar_of_digit hdl])]
  rw [List.reverse_cons, List.reverse_reverse]

theorem splitOn_uid (d1 d2 d3 : List Char)
    (h1 : ∀ c ∈ d1, c.isDigit = true) (h2 : ∀ c ∈ d2, c.isDigit = true)
    (h3 : ∀ c ∈ d3, c.isDigit = true) :
    ('S' :: (d1 ++ ':' :: 'S' :: 'h' :: (d2 ++ ':' :: 'P' :: d3))).splitOn ':' =
      ['S' :: d1, 'S' :: 'h' :: d2, 'P' :: d3] := by
  have hint : List.intercalate [':'] ['S' :: d1, 'S' :: 'h' :: d2, 'P' :: d3] =
      'S' :: (d1 ++ ':' :: 'S' :: 'h' :: (d2 ++ ':' :: 'P' :: d3)) := by
    simp [List.intercalate, List.intersperse_cons_cons]
  rw [← hint]
  apply List.splitOn_intercalate
  · intro l hl
    simp only [List.mem_cons, List.not_mem_nil, or_false] at hl
    rcases hl with rfl | rfl | rfl
    · intro hmem
      rcases List.mem_cons.mp hmem with he | he
      · exact absurd he (by decide)
      · exact absurd (h1 _ he) (by decide)
    · intro hmem
      rcases List.mem_cons.mp hmem with he | he
      · exact absurd he (by decide)
      · rcases List.mem_cons.mp he with he2 | he2
        · exact absurd he2 (by decide)
        · exact absurd (h2 _ he2) (by decide)
    · intro hmem
      rcases List.mem_cons.mp hmem with he | he
      · exact absurd he (by decide)
      · exact absurd (h3 _ he) (by decide)
  · simp

theorem parseEditLine_eq {line : List Char} {d1 d2 d3 cap : List Char}
    (h : searchEdit line = some ((d1, d2, d3), cap)) :
    parseEditLine line =
      some ((digitsVal d1, digitsVal d2, digitsVal d3), pyStrip cap) := by
  obtain ⟨⟨h1ne, h1d⟩, ⟨h2ne, h2d⟩, ⟨h3ne, h3d⟩⟩ := searchEdit_groups h
  have hp1 : pyInt? d1 = some (digitsVal d1) := by rw [pyInt?, if_pos ⟨h1ne, h1d⟩]
  have hp2 : pyInt? d2 = some (digitsVal d2) := by rw [pyInt?, if_pos ⟨h2ne, h2d⟩]
  have hp3 : pyInt? d3 = some (digitsVal d3) := by rw [pyInt?, if_pos ⟨h3ne, h3d⟩]
  simp [parseEditLine, h, stripChars_mkUid d1 d2 d3 h3ne h3d,
    splitOn_uid d1 d2 d3 h1d h2d h3d, hp1, hp2, hp3, List.drop_succ_cons]

theorem parseEditLine_fmtLine (si shi pi : Nat) (t : List Char)
    (hld : t.dropWhile pyIsSpace = t) (hnl : '\n' ∉ t) :
    parseEditLine (fmtLine si shi pi t) = some ((si, shi, pi), pyStrip t) := by
  have hm := matchIdAt_fmt si shi pi [' '] (' ' :: t)
    (by intro c hc; simp at hc; subst hc; rfl)
  have hcap : ((' ' :: t).dropWhile pyIsSpace).takeWhile (fun c => c ≠ '\n') = t := by
    have h1 : (' ' :: t).dropWhile pyIsSpace = t := by
      rw [List.dropWhile_cons, if_pos (by simp [pyIsSpace])]
      exact hld
    rw [h1]
    apply takeWhile_of_all
    intro c hc
    simp only [decide_eq_true_eq]
    intro he
    exact hnl (he ▸ hc)
  rw [hcap] at hm
  have hfl : fmtLine si shi pi t = fmtId si shi pi ++ [' '] ++ '|' :: '|' :: (' ' :: t) := by
    simp [fmtLine, List.append_assoc]
  have hsearch : searchEdit (fmtLine si shi pi t) =
      some ((natDigits si, natDigits shi, natDigits pi), t) := by
    rw [hfl]
    exact searchEdit_cons_some hm
  have := parseEditLine_eq hsearch
  rwa [digitsVal_natDigits, digitsVal_natDigits, digitsVal_natDigits] at this

/-! ### Decomposition of an accepted line at the matched double pipe -/

theorem pyStrip_dropWhile_left (l : List Char) :
    pyStrip (l.dropWhile pyIsSpace) = pyStrip l := by
  rw [pyStrip, pyStrip, dropWhile_idem]

theorem matchIdAt_decomp {l : List Char} {d1 d2 d3 cap : List Char}
    (h : matchIdAt l = some ((d1, d2, d3), cap)) :
    ∃ a r, l = a ++ '|' :: '|' :: r ∧
      cap = (r.dropWhile pyIsSpace).takeWhile (fun c => c ≠ '\n') := by
  cases l with
  | nil => exact absurd h (by simp [matchIdAt])
  | cons c0 t0 =>
    cases t0 with
    | nil => exact absurd h (by simp [matchIdAt])
    | cons c1 r1 =>
      unfold matchIdAt at h
      simp only [] at h
      by_cases h0 : c0 = lbrace ∧ c1 = 'S'
      case neg => rw [if_neg h0] at h; exact Option.noConfusion h
      rw [if_pos h0] at h
      by_cases h1 : r1.takeWhile Char.isDigit = []
      case pos => rw [if_pos h1] at h; exact Option.noConfusion h
      rw [if_neg h1] at h
      cases e1 : r1.dropWhile Char.isDigit with
      | nil => rw [e1] at h; exact Option.noConfusion h
      | cons c2 t2 =>
        cases t2 with
        | nil => rw [e1] at h; exact Option.noConfusion h
        | cons c3 t3 =>
          cases t3 with
          | nil => rw [e1] at h; exact Option.noConfusion h
          | cons c4 r2 =>
            rw [e1] at h
            simp only [] at h
            by_cases h2 : c2 = ':' ∧ c3 = 'S' ∧ c4 = 'h'
            case neg => rw [if_neg h2] at h; exact Option.noConfusion h
            rw [if_pos h2] at h
            by_cases h3 : r2.takeWhile Char.isDigit = []
            case pos => rw [if_pos h3] at h; exact Option.noConfusion h
            rw [if_neg h3] at h
            cases e2 : r2.dropWhile Char.isDigit with
            | nil => rw [e2] at h; exact Option.noConfusion h
            | cons c5 t5 =>
              cases t5 with
              | nil => rw [e2] at h; exact Option.noConfusion h
              | cons c6 r3 =>
                rw [e2] at h
                simp only [] at h
                by_cases h4 : c5 = ':' ∧ c6 = 'P'
                case neg => rw [if_neg h4] at h; exact Option.noConfusion h
                rw [if_pos h4] at h
                by_cases h5 : r3.takeWhile Char.isDigit = []
                case pos => rw [if_pos h5] at h; exact Option.noConfusion h
                rw [if_neg h5] at h
                cases e3 : r3.dropWhile Char.isDigit with
                | nil => rw [e3] at h; exact Option.noConfusion h
                | cons c7 r4 =>
                  rw [e3] at h
                  simp only [] at h
                  by_cases h6 : c7 = rbrace
                  case neg => rw [if_neg h6] at h; exact Option.noConfusion h
                  rw [if_pos h6] at h
                  cases e4 : r4.dropWhile pyIsSpace with
                  | nil => rw [e4] at h; exact Option.noConfusion h
                  | cons c8 t8 =>
                    cases t8 with
                    | nil => rw [e4] at h; exact Option.noConfusion h
                    | cons c9 r6 =>
                      rw [e4] at h
                      simp only [] at h
                      by_cases h7 : c8 = '|' ∧ c9 = '|'
                      case neg => rw [if_neg h7] at h; exact Option.noConfusion h
                      rw [if_pos h7] at h
                      rw [Option.some.injEq, Prod.mk.injEq] at h
                      obtain ⟨-, hcap⟩ := h
                      obtain ⟨hc0, hc1⟩ := h0
                      obtain ⟨hc2, hc3, hc4⟩ := h2
                      obtain ⟨hc5, hc6⟩ := h4
                      obtain ⟨hc8, hc9⟩ := h7
                      subst hc0; subst hc1; subst hc2; subst hc3; subst hc4
                      subst hc5; subst hc6; subst h6; subst hc8; subst hc9
                      refine ⟨lbrace :: 'S' :: (r1.takeWhile Char.isDigit ++
                        ':' :: 'S' :: 'h' :: (r2.takeWhile Char.isDigit ++
                          ':' :: 'P' :: (r3.takeWhile Char.isDigit ++
                            rbrace :: r4.takeWhile pyIsSpace))), r6, ?_, hcap.symm⟩
                      have hr1 : r1 = r1.takeWhile Char.isDigit ++ ':' :: 'S' :: 'h' :: r2 := by
                        rw [← e1, List.takeWhile_append_dropWhile]
                      have hr2 : r2 = r2.takeWhile Char.isDigit ++ ':' :: 'P' :: r3 := by
                        rw [← e2, List.takeWhile_append_dropWhile]
                      have hr3 : r3 = r3.takeWhile Char.isDigit ++ rbrace :: r4 := by
                        rw [← e3, List.takeWhile_append_dropWhile]
                      have hr4 : r4 = r4.takeWhile pyIsSpace ++ '|' :: '|' :: r6 := by
                        rw [← e4, List.takeWhile_append_dropWhile]
                      conv_lhs => rw [hr1]
                      conv_lhs => rw [hr2]
                      conv_lhs => rw [hr3]
                      conv_lhs => rw [hr4]
                      simp [List.append_assoc]

theorem searchEdit_decomp {line : List Char} {d1 d2 d3 cap : List Char}
    (h : searchEdit line = some ((d1, d2, d3), cap)) :
    ∃ a r, line = a ++ '|' :: '|' :: r ∧
      cap = (r.dropWhile pyIsSpace).takeWhile (fun c => c ≠ '\n') := by
  induction line with
  | nil => exact matchIdAt_decomp (by simpa [searchEdit] using h)
  | cons c cs ih =>
    simp only [searchEdit] at h
    cases hm : matchIdAt (c :: cs) with
    | some r0 =>
      obtain ⟨⟨e1, e2, e3⟩, ec⟩ := r0
      rw [hm] at h
      simp only [] at h
      cases h
      exact matchIdAt_decomp hm
    | none =>
      rw [hm] at h
      obtain ⟨a, r, hline, hcap⟩ := ih h
      exact ⟨c :: a, r, by rw [hline]; rfl, hcap⟩

theorem parseEditLine_snd {line : List Char} {key : Nat × Nat × Nat} {t : List Char}
    (h : parseEditLine line = some (key, t)) :
    ∃ g cap, searchEdit line = some (g, cap) ∧ t = pyStrip cap := by
  unfold parseEditLine at h
  cases hse : searchEdit line with
  | none => rw [hse] at h; exact Option.noConfusion h
  | some r0 =>
    obtain ⟨⟨d1, d2, d3⟩, cap⟩ := r0
    rw [hse] at h
    simp only [] at h
    refine ⟨(d1, d2, d3), cap, rfl, ?_⟩
    repeat' split at h
    any_goals exact Option.noConfusion h
    rw [Option.some.injEq, Prod.mk.injEq] at h
    exact h.2.symm

theorem parseEditLine_replacement {line t : List Char} {key : Nat × Nat × Nat}
    (h : parseEditLine line = some (key, t)) :
    ∃ a r, line = a ++ '|' :: '|' :: r ∧ (('\n' : Char) ∉ r → t = pyStrip r) := by
  obtain ⟨g, cap, hse, ht⟩ := parseEditLine_snd h
  obtain ⟨d1, d2, d3⟩ := g
  obtain ⟨a, r, hline, hcap⟩ := searchEdit_decomp hse
  refine ⟨a, r, hline, fun hnl => ?_⟩
  have h1 : (r.dropWhile pyIsSpace).takeWhile (fun c => c ≠ '\n') =
      r.dropWhile pyIsSpace := by
    apply takeWhile_of_all
    intro c hc
    have hcr : c ∈ r := by
      rw [← List.takeWhile_append_dropWhile (p := pyIsSpace) (l := r)]
      exact List.mem_append.mpr (Or.inr hc)
    simp only [decide_eq_true_eq]
    intro he
    exact hnl (he ▸ hcr)
  rw [ht, hcap, h1, pyStrip_dropWhile_left]

/-! ### Extracted lines as formatted addressable pairs -/

theorem extractParas_eq_map (si shi : Nat) :
    ∀ (ps : List Paragraph) (n : Nat),
      extractParas si shi n ps =
        (pairsParas si shi n ps).map (fun e => fmtLine e.1.1 e.1.2.1 e.1.2.2 e.2) := by
  intro ps
  induction ps with
  | nil => intro n; rfl
  | cons p ps ih =>
    intro n
    by_cases h : pyStrip (paragraphText p) = []
    · simp [extractParas, pairsParas, h, ih (n + 1)]
    · simp [extractParas, pairsParas, h, ih (n + 1)]

theorem extractShapes_eq_map (si : Nat) :
    ∀ (shs : List Shape) (n : Nat),
      extractShapes si n shs =
        (pairsShapes si n shs).map (fun e => fmtLine e.1.1 e.1.2.1 e.1.2.2 e.2) := by
  intro shs
  induction shs with
  | nil => intro n; rfl
  | cons sh shs ih =>
    intro n
    simp only [extractShapes, pairsShapes, List.map_append]
    rw [ih (n + 1)]
    cases htf : sh.textFrame with
    | none => simp
    | some ps => simp [extractParas_eq_map]

theorem extractSlides_eq_map :
    ∀ (ss : List Slide) (n : Nat),
      extractSlides n ss =
        (pairsSlides n ss).map (fun e => fmtLine e.1.1 e.1.2.1 e.1.2.2 e.2) := by
  intro ss
  induction ss with
  | nil => intro n; rfl
  | cons sl ss ih =>
    intro n
    simp only [extractSlides, pairsSlides, List.map_append]
    rw [ih (n + 1), extractShapes_eq_map]

/-! ### Membership bounds for the addressable pairs -/

theorem mem_pairsParas {si shi : Nat} :
    ∀ {ps : List Paragraph} {n : Nat} {e : (Nat × Nat × Nat) × List Char},
      e ∈ pairsParas si shi n ps →
      e.1.1 = si ∧ e.1.2.1 = shi ∧ n ≤ e.1.2.2 ∧
        ∃ p, e.2 = pyStrip (paragraphText p) ∧ e.2 ≠ [] := by
  intro ps
  induction ps with
  | nil => intro n e he; simp [pairsParas] at he
  | cons p ps ih =>
    intro n e he
    simp only [pairsParas] at he
    rcases List.mem_append.mp he with h1 | h1
    · by_cases hc : pyStrip (paragraphText p) ≠ []
      · rw [if_pos hc] at h1
        rcases List.mem_singleton.mp h1 with rfl
        exact ⟨rfl, rfl, Nat.le_refl n, p, rfl, hc⟩
      · rw [if_neg hc] at h1
        simp at h1
    · obtain ⟨ha, hb, hcle, hp⟩ := ih h1
      exact ⟨ha, hb, by omega, hp⟩

theorem mem_pairsShapes {si : Nat} :
    ∀ {shs : List Shape} {n : Nat} {e : (Nat × Nat × Nat) × List Char},
      e ∈ pairsShapes si n shs →
      e.1.1 = si ∧ n ≤ e.1.2.1 ∧
        ∃ p, e.2 = pyStrip (paragraphText p) ∧ e.2 ≠ [] := by
  intro shs
  induction shs with
  | nil => intro n e he; simp [pairsShapes] at he
  | cons sh shs ih =>
    intro n e he
    simp only [pairsShapes] at he
    rcases List.mem_append.mp he with h1 | h1
    · cases htf : sh.textFrame with
      | none => rw [htf] at h1; simp at h1
      | some ps =>
        rw [htf] at h1
        obtain ⟨ha, hb, -, hp⟩ := mem_pairsParas h1
        exact ⟨ha, Nat.le_of_eq hb.symm, hp⟩
    · obtain ⟨ha, hb, hp⟩ := ih h1
      exact ⟨ha, by omega, hp⟩

theorem mem_pairsSlides :
    ∀ {ss : List Slide} {n : Nat} {e : (Nat × Nat × Nat) × List Char},
      e ∈ pairsSlides n ss →
      n ≤ e.1.1 ∧ ∃ p, e.2 = pyStrip (paragraphText p) ∧ e.2 ≠ [] := by
  intro ss
  induction ss with
  | nil => intro n e he; simp [pairsSlides] at he
  | cons sl ss ih =>
    intro n e he
    simp only [pairsSlides] at he
    rcases List.mem_append.mp he with h1 | h1
    · obtain ⟨ha, -, hp⟩ := mem_pairsShapes h1
      exact ⟨Nat.le_of_eq ha.symm, hp⟩
    · obtain ⟨ha, hp⟩ := ih h1
      exact ⟨by omega, hp⟩

/-! ### Filtering the addressable pairs by one positional key -/

theorem filter_pairsParas (si shi : Nat) :
    ∀ (ps : List Paragraph) (n d : Nat),
      (pairsParas si shi n ps).filter (fun e => e.1 = (si, shi, n + d)) =
        match ps[d]? with
        | none => []
        | some p =>
          if pyStrip (paragraphText p) ≠ []
          then [((si, shi, n + d), pyStrip (paragraphText p))] else [] := by
  intro ps
  induction ps with
  | nil => intro n d; simp [pairsParas]
  | cons p ps ih =>
    intro n d
    simp only [pairsParas, List.filter_append]
    cases d with
    | zero =>
      have ht : (pairsParas si shi (n + 1) ps).filter
          (fun e => e.1 = (si, shi, n + 0)) = [] := by
        rw [List.filter_eq_nil_iff]
        intro e he
        obtain ⟨-, -, hge, -⟩ := mem_pairsParas he
        simp only [decide_eq_true_eq]
        intro hkey
        rw [hkey] at hge
        simp at hge
      rw [ht, List.append_nil]
      simp only [List.getElem?_cons_zero]
      by_cases hc : pyStrip (paragraphText p) ≠ []
      · rw [if_pos hc, if_pos hc]
        simp
      · rw [if_neg hc, if_neg hc]
        simp
    | succ d' =>
      have hkey : ¬((si, shi, n) = (si, shi, n + (d' + 1))) := by
        simp only [Prod.mk.injEq, true_and]
        omega
      have hh : (if pyStrip (paragraphText p) ≠ []
            then [((si, shi, n), pyStrip (paragraphText p))] else []).filter
          (fun e => e.1 = (si, shi, n + (d' + 1))) = [] := by
        by_cases hc : pyStrip (paragraphText p) ≠ []
        · rw [if_pos hc]
          simp [hkey]
        · rw [if_neg hc]
          rfl
      rw [hh, List.nil_append]
      have hn : n + (d' + 1) = (n + 1) + d' := by omega
      rw [hn, ih (n + 1) d']
      simp only [List.getElem?_cons_succ]

theorem filter_pairsShapes (si : Nat) :
    ∀ (shs : List Shape) (n d pi' : Nat),
      (pairsShapes si n shs).filter (fun e => e.1 = (si, n + d, pi')) =
        match shs[d]? with
        | none => []
        | some sh =>
          match sh.textFrame with
          | none => []
          | some ps =>
            match ps[pi']? with
            | none => []
            | some p =>
              if pyStrip (paragraphText p) ≠ []
              then [((si, n + d, pi'), pyStrip (paragraphText p))] else [] := by
  intro shs
  induction shs with
  | nil => intro n d pi'; simp [pairsShapes]
  | cons sh shs ih =>
    intro n d pi'
    simp only [pairsShapes, List.filter_append]
    cases d with
    | zero =>
      have ht : (pairsShapes si (n + 1) shs).filter
          (fun e => e.1 = (si, n + 0, pi')) = [] := by
        rw [List.filter_eq_nil_iff]
        intro e he
        obtain ⟨-, hge, -⟩ := mem_pairsShapes he
        simp only [decide_eq_true_eq]
        intro hkey
        rw [hkey] at hge
        simp at hge
      rw [ht, List.append_nil]
      simp only [List.getElem?_cons_zero]
      cases htf : sh.textFrame with
      | none => simp
      | some ps =>
        simp only []
        have hp := filter_pairsParas si n ps 0 pi'
        rw [Nat.zero_add] at hp
        have hn0 : n + 0 = n := by omega
        rw [hn0, hp]
    | succ d' =>
      have hh : ((match sh.textFrame with
            | none => []
            | some ps => pairsParas si n 0 ps :
              List ((Nat × Nat × Nat) × List Char))).filter
          (fun e => e.1 = (si, n + (d' + 1), pi')) = [] := by
        cases htf : sh.textFrame with
        | none => rfl
        | some ps =>
          rw [List.filter_eq_nil_iff]
          intro e he
          obtain ⟨-, hb, -, -⟩ := mem_pairsParas he
          simp only [decide_eq_true_eq]
          intro hkey
          rw [hkey] at hb
          simp only [Prod.mk.injEq] at hb
          omega
      rw [hh, List.nil_append]
      have hn : n + (d' + 1) = (n + 1) + d' := by omega
      rw [hn, ih (n + 1) d' pi']
      simp only [List.getElem?_cons_succ]

theorem filter_pairsSlides :
    ∀ (ss : List Slide) (n d shi' pi' : Nat),
      (pairsSlides n ss).filter (fun e => e.1 = (n + d, shi', pi')) =
        match ss[d]? with
        | none => []
        | some sl =>
          (pairsShapes (n + d) 0 sl.shapes).filter
            (fun e => e.1 = (n + d, shi', pi')) := by
  intro ss
  induction ss with
  | nil => intro n d shi' pi'; simp [pairsSlides]
  | cons sl ss ih =>
    intro n d shi' pi'
    simp only [pairsSlides, List.filter_append]
    cases d with
    | zero =>
      have ht : (pairsSlides (n + 1) ss).filter
          (fun e => e.1 = (n + 0, shi', pi')) = [] := by
        rw [List.filter_eq_nil_iff]
        intro e he
        obtain ⟨hge, -⟩ := mem_pairsSlides he
        simp only [decide_eq_true_eq]
        intro hkey
        rw [hkey] at hge
        simp at hge
      rw [ht, List.append_nil]
      simp only [List.getElem?_cons_zero]
      have hn0 : n + 0 = n := by omega
      rw [hn0]
    | succ d' =>
      have hh : (pairsShapes n 0 sl.shapes).filter
          (fun e => e.1 = (n + (d' + 1), shi', pi')) = [] := by
        rw [List.filter_eq_nil_iff]
        intro e he
        obtain ⟨ha, -, -⟩ := mem_pairsShapes he
        simp only [decide_eq_true_eq]
        intro hkey
        rw [hkey] at ha
        simp only [Prod.mk.injEq] at ha
        omega
      rw [hh, List.nil_append]
      have hn : n + (d' + 1) = (n + 1) + d' := by omega
      rw [hn, ih (n + 1) d' shi' pi']
      simp only [List.getElem?_cons_succ]

theorem filter_docPairs {prs : Document} {si shi pi : Nat} {p : Paragraph}
    (hpa : paraAt prs si shi pi = some p) :
    (docPairs prs).filter (fun e => e.1 = (si, shi, pi)) =
      if pyStrip (paragraphText p) ≠ []
      then [((si, shi, pi), pyStrip (paragraphText p))] else [] := by
  rw [paraAt] at hpa
  cases hsl : prs[si]? with
  | none => simp [hsl] at hpa
  | some sl =>
    simp only [hsl] at hpa
    cases hsh : sl.shapes[shi]? with
    | none => simp [hsh] at hpa
    | some sh =>
      simp only [hsh] at hpa
      cases htf : sh.textFrame with
      | none => simp [htf] at hpa
      | some ps =>
        simp only [htf] at hpa
        have h1 := filter_pairsSlides prs 0 si shi pi
        rw [Nat.zero_add] at h1
        rw [docPairs, h1]
        simp only [hsl]
        have h2 := filter_pairsShapes si sl.shapes 0 shi pi
        rw [Nat.zero_add] at h2
        rw [h2]
        simp only [hsh, htf, hpa]

/-! ### The updates mapping computed from an extraction payload -/

theorem filterMap_eq_self {α : Type} (f : α → Option α) :
    ∀ (l : List α), (∀ x ∈ l, f x = some x) → l.filterMap f = l := by
  intro l
  induction l with
  | nil => intro h; rfl
  | cons a as ih =>
    intro h
    simp only [List.filterMap_cons, h a (by simp)]
    rw [ih (fun x hx => h x (by simp [hx]))]

theorem nl_not_mem_fmtId (si shi pi : Nat) : ('\n' : Char) ∉ fmtId si shi pi := by
  intro h
  rw [fmtId] at h
  simp only [List.mem_cons, List.mem_append, List.mem_singleton] at h
  rcases h with he | he | he | he | he | he | he | he | he | he | he
  · exact absurd he (by decide)
  · exact absurd he (by decide)
  · exact absurd (natDigits_all_digit _ _ he) (by decide)
  · exact absurd he (by decide)
  · exact absurd he (by decide)
  · exact absurd he (by decide)
  · exact absurd (natDigits_all_digit _ _ he) (by decide)
  · exact absurd he (by decide)
  · exact absurd he (by decide)
  · exact absurd (natDigits_all_digit _ _ he) (by decide)
  · exact absurd he (by decide)

theorem nl_not_mem_fmtLine {si shi pi : Nat} {t : List Char} (h : ('\n' : Char) ∉ t) :
    ('\n' : Char) ∉ fmtLine si shi pi t := by
  intro hmem
  rw [fmtLine] at hmem
  rcases List.mem_append.mp hmem with h1 | h1
  · exact nl_not_mem_fmtId si shi pi h1
  · simp only [List.mem_cons] at h1
    rcases h1 with he | he | he | he | he
    · exact absurd he (by decide)
    · exact absurd he (by decide)
    · exact absurd he (by decide)
    · exact absurd he (by decide)
    · exact h he

theorem buildUpdates_extract {prs : Document} {si shi pi : Nat} {p : Paragraph}
    (hnl : ∀ e ∈ docPairs prs, ('\n' : Char) ∉ e.2)
    (hne : docPairs prs ≠ [])
    (hpa : paraAt prs si shi pi = some p) :
    buildUpdates (extract_content prs) (si, shi, pi) =
      if pyStrip (paragraphText p) ≠ []
      then some (pyStrip (paragraphText p)) else none := by
  have hlines0 : extractSlides 0 prs =
      (docPairs prs).map (fun e => fmtLine e.1.1 e.1.2.1 e.1.2.2 e.2) :=
    extractSlides_eq_map prs 0
  have hmemfacts : ∀ l ∈ extractSlides 0 prs, ('\n' : Char) ∉ l := by
    rw [hlines0]
    intro l hl
    obtain ⟨e, he, rfl⟩ := List.mem_map.mp hl
    exact nl_not_mem_fmtLine (hnl e he)
  have hne2 : extractSlides 0 prs ≠ [] := by
    rw [hlines0]
    simpa using hne
  have hsplit : (extract_content prs).splitOn '\n' = extractSlides 0 prs := by
    rw [extract_content, show "\n".data = ['\n'] from rfl]
    exact List.splitOn_intercalate _ '\n' hmemfacts hne2
  rw [buildUpdates, hsplit, buildUpdatesFromLines, foldl_updStep_spec]
  have hfm : ((extractSlides 0 prs).filterMap parseEditLine) = docPairs prs := by
    rw [hlines0, List.filterMap_map]
    apply filterMap_eq_self
    intro e he
    obtain ⟨-, p0, hp0, hne0⟩ := mem_pairsSlides he
    have hstripfix : pyStrip e.2 = e.2 := by rw [hp0, pyStrip_idem]
    show parseEditLine (fmtLine e.1.1 e.1.2.1 e.1.2.2 e.2) = some e
    rw [parseEditLine_fmtLine _ _ _ _ (by rw [hp0]; exact pyStrip_dropWhile _) (hnl e he),
      hstripfix]
  rw [hfm, filter_docPairs hpa]
  by_cases hc : pyStrip (paragraphText p) ≠ []
  · rw [if_pos hc, if_pos hc]
    simp
  · rw [if_neg hc, if_neg hc]
    simp

/-! ### Re-extraction after applying the extraction edits -/

theorem extract_apply_paras (u : Updates) (si shi : Nat) :
    ∀ (ps : List Paragraph) (n : Nat),
      (∀ d p, ps[d]? = some p →
        u (si, shi, n + d) =
          if pyStrip (paragraphText p) ≠ []
          then some (pyStrip (paragraphText p)) else none) →
      extractParas si shi n (applyParas u si shi n ps) = extractParas si shi n ps := by
  intro ps
  induction ps with
  | nil => intro n h; rfl
  | cons p ps ih =>
    intro n h
    have h0 : u (si, shi, n) =
        if pyStrip (paragraphText p) ≠ []
        then some (pyStrip (paragraphText p)) else none := by
      simpa using h 0 p (by simp)
    have htail := ih (n + 1) (fun d p' hp' => by
      have hh := h (d + 1) p' (by simpa using hp')
      rwa [show n + (d + 1) = (n + 1) + d from by omega] at hh)
    simp only [applyParas, extractParas]
    rw [h0, htail]
    by_cases hc : pyStrip (paragraphText p) ≠ []
    · rw [if_pos hc]
      have hpt : paragraphText (patchPara (some (pyStrip (paragraphText p))) p) =
          pyStrip (paragraphText p) := paragraphText_patch _ p
      rw [hpt, pyStrip_idem]
    · rw [if_neg hc]
      rfl

theorem extract_apply_shapes (u : Updates) (si : Nat) :
    ∀ (shs : List Shape) (n : Nat),
      (∀ d sh, shs[d]? = some sh → ∀ ps, sh.textFrame = some ps →
        ∀ f p, ps[f]? = some p →
          u (si, n + d, f) =
            if pyStrip (paragraphText p) ≠ []
            then some (pyStrip (paragraphText p)) else none) →
      extractShapes si n (applyShapes u si n shs) = extractShapes si n shs := by
  intro shs
  induction shs with
  | nil => intro n h; rfl
  | cons sh shs ih =>
    intro n h
    have htail := ih (n + 1) (fun d sh' hd ps htf f p hp => by
      have hh := h (d + 1) sh' (by simpa using hd) ps htf f p hp
      rwa [show n + (d + 1) = (n + 1) + d from by omega] at hh)
    simp only [applyShapes, extractShapes]
    rw [htail]
    cases htf : sh.textFrame with
    | none => simp only [htf]
    | some ps =>
      simp only [htf]
      rw [extract_apply_paras u si n ps 0 (fun f p hp => by
        simpa using h 0 sh (by simp) ps htf f p hp)]

theorem extract_apply_slides (u : Updates) :
    ∀ (ss : List Slide) (n : Nat),
      (∀ d sl, ss[d]? = some sl → ∀ e sh, sl.shapes[e]? = some sh →
        ∀ ps, sh.textFrame = some ps → ∀ f p, ps[f]? = some p →
          u (n + d, e, f) =
            if pyStrip (paragraphText p) ≠ []
            then some (pyStrip (paragraphText p)) else none) →
      extractSlides n (applySlides u n ss) = extractSlides n ss := by
  intro ss
  induction ss with
  | nil => intro n h; rfl
  | cons sl ss ih =>
    intro n h
    have htail := ih (n + 1) (fun d sl' hd e sh he ps htf f p hp => by
      have hh := h (d + 1) sl' (by simpa using hd) e sh he ps htf f p hp
      rwa [show n + (d + 1) = (n + 1) + d from by omega] at hh)
    simp only [applySlides, extractSlides]
    rw [htail]
    rw [extract_apply_shapes u n sl.shapes 0 (fun e sh he ps htf f p hp => by
      simpa using h 0 sl (by simp) e sh he ps htf f p hp)]

theorem roundtrip_core {prs : Document}
    (hnl : ∀ e ∈ docPairs prs, ('\n' : Char) ∉ e.2)
    (hne : docPairs prs ≠ []) :
    extract_content (apply_changes prs (extract_content prs)) = extract_content prs := by
  rw [apply_changes, applyUpdates]
  rw [extract_content, extract_content]
  congr 1
  apply extract_apply_slides
  intro d sl hd e sh he ps htf f p hp
  have hpa : paraAt prs d e f = some p := by
    simp [paraAt, hd, he, htf, hp]
  have hK := buildUpdates_extract hnl hne hpa
  simpa using hK

/-! ### Claim C1 -/

/-- Claim C1 counterexample: for the document whose single run text carries an
embedded newline, extracting, feeding the patcher exactly the extracted text
and re-extracting does not reproduce the original extraction — the newline
splits the payload line in two during parsing, truncating the text. -/
theorem c1_counterexample :
    ¬(extract_content (apply_changes exDocNL (extract_content exDocNL)) =
      extract_content exDocNL) := by
  decide

/-- Claim C1 (amended): for every Document with at least one Paragraph whose
concatenated Run text is non-empty after trimming, and in which no addressable
paragraph's trimmed text contains a newline character, extracting the
Document, feeding the Patcher exactly the extracted text, and re-extracting
yields per-paragraph text byte-identical to the original extraction. -/
theorem c1_round_trip {prs : Document}
    (h1 : ∃ si shi pi p, paraAt prs si shi pi = some p ∧
      pyStrip (paragraphText p) ≠ [])
    (h2 : ∀ e ∈ docPairs prs, ('\n' : Char) ∉ e.2) :
    extract_content (apply_changes prs (extract_content prs)) = extract_content prs := by
  obtain ⟨si, shi, pi, p, hpa, hq⟩ := h1
  have hne : docPairs prs ≠ [] := by
    intro h0
    have hf := filter_docPairs hpa
    rw [h0, if_pos hq] at hf
    simp at hf
  exact roundtrip_core h2 hne

/-- Claim C1 witness: the amended round trip instantiated on a concrete
document with both hypotheses discharged by computation. -/
theorem c1_witness :
    extract_content (apply_changes exDoc (extract_content exDoc)) =
      extract_content exDoc :=
  c1_round_trip ⟨0, 0, 0, ⟨[⟨" Hello world ".data, 3⟩, ⟨"!".data, 4⟩]⟩, rfl, by decide⟩
    (by decide)

/-! ### Claim C2 -/

/-- Claim C2 counterexample: with a buffer in which the delimiter occurs
twice, the transition moves only the text between the first and second
occurrence into the payload accumulator, not all text after the first
occurrence. -/
theorem c2_counterexample :
    findSub SEPARATOR (initPS.thinking ++ (SEPARATOR ++ SEPARATOR ++ "X".data)) = some 0 ∧
    ¬((pstep SEPARATOR initPS (SEPARATOR ++ SEPARATOR ++ "X".data)).slide =
      (initPS.thinking ++ (SEPARATOR ++ SEPARATOR ++ "X".data)).drop
        (0 + SEPARATOR.length)) := by
  constructor
  · decide
  · decide

/-- Claim C2 (amended): on the first occurrence of the delimiter in the
accumulated preamble buffer, the parser transitions to payload collection,
and the text strictly between the first delimiter occurrence and the next
occurrence after it (to the buffer end when there is no further occurrence)
is moved into the payload accumulator; text at or before the first delimiter,
and text from the second occurrence onward, is discarded. -/
theorem c2_payload_on_transition {sep : List Char} {st : PState} {c : List Char} {i : Nat}
    (hsep : sep ≠ []) (hm : st.mode = Mode.Thinking)
    (hf : findSub sep (st.thinking ++ c) = some i) :
    (pstep sep st c).mode = Mode.Writing ∧
    (pstep sep st c).slide =
      st.slide ++
        ((st.thinking ++ c).drop (i + sep.length)).take
          ((findSub sep ((st.thinking ++ c).drop (i + sep.length))).getD
            ((st.thinking ++ c).drop (i + sep.length)).length) := by
  rw [pstep_transition hsep hm hf]
  exact ⟨rfl, rfl⟩

/-- Claim C2 witness: the amended transition instantiated on a concrete
fragment containing one delimiter occurrence. -/
theorem c2_witness :
    (pstep SEPARATOR initPS ("xy".data ++ SEPARATOR ++ "Z".data)).mode = Mode.Writing ∧
    (pstep SEPARATOR initPS ("xy".data ++ SEPARATOR ++ "Z".data)).slide =
      initPS.slide ++
        ((initPS.thinking ++ ("xy".data ++ SEPARATOR ++ "Z".data)).drop
            (2 + SEPARATOR.length)).take
          ((findSub SEPARATOR
              ((initPS.thinking ++ ("xy".data ++ SEPARATOR ++ "Z".data)).drop
                (2 + SEPARATOR.length))).getD
            ((initPS.thinking ++ ("xy".data ++ SEPARATOR ++ "Z".data)).drop
              (2 + SEPARATOR.length)).length) :=
  c2_payload_on_transition (by decide) rfl (by decide)

/-! ### Claim C3 -/

/-- Claim C3 counterexample: a stream text containing the delimiter twice
yields different final payloads depending on how it is chunked. -/
theorem c3_counterexample :
    ¬(finalPayload (runStream SEPARATOR ["A".data ++ SEPARATOR, SEPARATOR ++ "B".data]) =
      finalPayload (runStream SEPARATOR
        [("A".data ++ SEPARATOR) ++ (SEPARATOR ++ "B".data)])) := by
  decide

/-- Claim C3 (amended): for every stream text in which the delimiter does not
occur twice, and every way of splitting it into fragments (including splits
that cut the delimiter token across fragments), consuming the fragments one
at a time yields the same final payload as consuming the whole text as a
single fragment. -/
theorem c3_chunking_invariance {sep text : List Char} (hsep : sep ≠ [])
    (htwo : hasTwoSub sep text = false) (fs : List (List Char))
    (hfs : fs.flatten = text) :
    finalPayload (runStream sep fs) = finalPayload (runStream sep [text]) := by
  have h1 := runStream_spec hsep htwo fs hfs
  have h2 := runStream_spec hsep htwo [text] (by simp)
  rcases h1 with ⟨hn, he⟩ | ⟨j, hj, hm, hs1⟩
  · rcases h2 with ⟨-, he2⟩ | ⟨j, hj, -, -⟩
    · rw [he, he2]
    · rw [hn] at hj
      cases hj
  · rcases h2 with ⟨hn, -⟩ | ⟨j', hj', hm', hs2⟩
    · rw [hn] at hj
      cases hj
    · rw [hj] at hj'
      cases hj'
      rw [finalPayload_writing hm, finalPayload_writing hm', hs1, hs2]

/-- Claim C3 witness: the spec's delimiter-straddling example, split across
two fragments, produces the same payload as the single-fragment stream. -/
theorem c3_witness :
    finalPayload (runStream SEPARATOR
      ["reasoning text @@@_ST".data, "ART_SLIDE_CONTENT_@@@\x7bS0:Sh0:P0\x7d || Hello".data]) =
    finalPayload (runStream SEPARATOR
      ["reasoning text @@@_ST".data ++ "ART_SLIDE_CONTENT_@@@\x7bS0:Sh0:P0\x7d || Hello".data]) :=
  c3_chunking_invariance (by decide) (by decide)
    ["reasoning text @@@_ST".data, "ART_SLIDE_CONTENT_@@@\x7bS0:Sh0:P0\x7d || Hello".data]
    (by simp)

/-! ### Claim C4 -/

/-- Claim C4: if the stream ends with the delimiter never having appeared,
the parser retains exactly those buffer lines containing both a brace and
the double pipe, newline-joined, as the payload and applies them to the
document; if no such lines exist, no document mutation occurs. -/
theorem c4_failsafe {sep : List Char} {fs : List (List Char)} {prs : Document}
    (hsep : sep ≠ []) (hns : containsSub sep fs.flatten = false) :
    ((fs.flatten.splitOn '\n').filter
        (fun l => containsSub "||".data l && containsSub "\x7b".data l) ≠ [] →
      runTransform sep fs prs =
        some (apply_changes prs (List.intercalate "\n".data
          ((fs.flatten.splitOn '\n').filter
            (fun l => containsSub "||".data l && containsSub "\x7b".data l))))) ∧
    ((fs.flatten.splitOn '\n').filter
        (fun l => containsSub "||".data l && containsSub "\x7b".data l) = [] →
      runTransform sep fs prs = none) := by
  have hfn : findSub sep fs.flatten = none := by
    rw [containsSub] at hns
    cases hx : findSub sep fs.flatten with
    | none => rfl
    | some i => rw [hx] at hns; simp at hns
  have hspec := runStream_spec hsep (by rw [hasTwoSub, hfn]) fs rfl
  rcases hspec with ⟨-, hst⟩ | ⟨j, hj, -, -⟩
  case inr => rw [hfn] at hj; cases hj
  constructor
  · intro hvne
    obtain ⟨v, vs, hv⟩ : ∃ v vs, (fs.flatten.splitOn '\n').filter
        (fun l => containsSub "||".data l && containsSub "\x7b".data l) = v :: vs := by
      cases hval : (fs.flatten.splitOn '\n').filter
          (fun l => containsSub "||".data l && containsSub "\x7b".data l) with
      | nil => exact absurd hval hvne
      | cons v vs => exact ⟨v, vs, rfl⟩
    have hvmem : v ∈ (fs.flatten.splitOn '\n').filter
        (fun l => containsSub "||".data l && containsSub "\x7b".data l) := by
      rw [hv]
      simp
    have hvprop := List.mem_filter.mp hvmem
    obtain ⟨hpipe, hbrace⟩ := Bool.and_eq_true_iff.mp hvprop.2
    have hguard : containsSub "||".data fs.flatten = true :=
      containsSub_of_line hvprop.1 hpipe
    have hfs2 : failSafe fs.flatten = some (List.intercalate "\n".data
        ((fs.flatten.splitOn '\n').filter
          (fun l => containsSub "||".data l && containsSub "\x7b".data l))) := by
      rw [failSafe, if_pos (by rw [hguard]; simp), if_pos hvne]
    have hlb : lbrace ∈ List.intercalate "\n".data
        ((fs.flatten.splitOn '\n').filter
          (fun l => containsSub "||".data l && containsSub "\x7b".data l)) := by
      rw [show "\n".data = ['\n'] from rfl, hv]
      obtain ⟨a, b, hab⟩ := mem_intercalate_decomp '\n' (show v ∈ v :: vs by simp)
      rw [hab]
      have hmv : lbrace ∈ v := mem_of_containsSub_single
        (by rw [show ([lbrace] : List Char) = "\x7b".data from rfl]; exact hbrace)
      simp [hmv]
    have hstrip : pyStrip (List.intercalate "\n".data
        ((fs.flatten.splitOn '\n').filter
          (fun l => containsSub "||".data l && containsSub "\x7b".data l))) ≠ [] :=
      pyStrip_ne_nil_of_mem hlb (by decide)
    have hfinal : finalPayload (runStream sep fs) = List.intercalate "\n".data
        ((fs.flatten.splitOn '\n').filter
          (fun l => containsSub "||".data l && containsSub "\x7b".data l)) := by
      rw [hst]
      simp only [finalPayload, hfs2]
    rw [runTransform]
    simp only [hfinal]
    rw [if_pos hstrip]
  · intro hveq
    have hfs2 : failSafe fs.flatten = none := by
      rw [failSafe]
      by_cases hg : (containsSub "\x7bS0".data fs.flatten ||
          containsSub "||".data fs.flatten) = true
      · rw [if_pos hg, if_neg (by simp [hveq])]
      · rw [if_neg hg]
    have hfinal : finalPayload (runStream sep fs) = [] := by
      rw [hst]
      simp only [finalPayload, hfs2]
    rw [runTransform]
    simp only [hfinal]
    rw [if_neg (by simp [pyStrip])]

/-- Claim C4 witness: a concrete delimiter-free stream with no brace-and-pipe
lines triggers the no-mutation outcome. -/
theorem c4_witness :
    runTransform SEPARATOR ["no payload here".data] exDoc = none :=
  (c4_failsafe (by decide) (by decide)).2 (by decide)

/-! ### Claim C5 -/

/-- Claim C5: for every Document, extraction emits, in slide/shape/paragraph
document order, exactly one line per Paragraph whose concatenated Run text is
non-empty after trimming, each of the exact formatted shape; shapes lacking a
text frame and paragraphs with empty trimmed text produce no line but still
consume their ordinal index slot (the docPairs enumeration follows the spec's
wording of the addressable units). -/
theorem c5_extractor_contract (prs : Document) :
    extract_content prs =
      List.intercalate "\n".data
        ((docPairs prs).map (fun e => fmtLine e.1.1 e.1.2.1 e.1.2.2 e.2)) := by
  rw [extract_content, extractSlides_eq_map, docPairs]

/-! ### Claim C6 -/

/-- Claim C6: for every Paragraph whose key is in the edits mapping, after
patching the paragraph has max(len, 1) runs, its first run's text equals the
replacement verbatim, and every subsequent run's text is empty (the zero-run
case creates exactly one new run carrying the replacement). -/
theorem c6_patch_step {prs : Document} {payload : List Char} {si shi pi : Nat}
    {para : Paragraph} {t : List Char}
    (h1 : paraAt prs si shi pi = some para)
    (h2 : buildUpdates payload (si, shi, pi) = some t) :
    ∃ para', paraAt (apply_changes prs payload) si shi pi = some para' ∧
      para'.runs.length = max para.runs.length 1 ∧
      (∀ r0, para'.runs.head? = some r0 → r0.text = t) ∧
      (∀ i r, 1 ≤ i → para'.runs[i]? = some r → r.text = []) := by
  refine ⟨patchParagraph t para, ?_, ?_, ?_, ?_⟩
  · rw [apply_changes, paraAt_applyUpdates, h1, h2]
    rfl
  · cases hpr : para.runs with
    | nil => simp [patchParagraph, hpr]
    | cons r rs =>
      simp only [patchParagraph, hpr, List.length_cons, List.length_map]
      omega
  · intro r0 h0
    cases hpr : para.runs with
    | nil =>
      simp only [patchParagraph, hpr, List.head?_cons, Option.some.injEq] at h0
      rw [← h0]
    | cons r rs =>
      simp only [patchParagraph, hpr, List.head?_cons, Option.some.injEq] at h0
      rw [← h0]
  · intro i r hi hr
    obtain ⟨i', rfl⟩ : ∃ i', i = i' + 1 := ⟨i - 1, by omega⟩
    cases hpr : para.runs with
    | nil => simp [patchParagraph, hpr] at hr
    | cons r0 rs =>
      simp only [patchParagraph, hpr, List.getElem?_cons_succ, List.getElem?_map] at hr
      cases hx : rs[i']? with
      | none => rw [hx] at hr; simp at hr
      | some r' =>
        rw [hx] at hr
        simp only [Option.map_some', Option.some.injEq] at hr
        rw [← hr]

/-- Claim C6 witness: patching the two-run paragraph of a concrete document
through a concrete payload. -/
theorem c6_witness :
    ∃ para', paraAt (apply_changes exDoc "\x7bS0:Sh0:P0\x7d || New".data) 0 0 0 =
        some para' ∧
      para'.runs.length =
        max (Paragraph.mk [⟨" Hello world ".data, 3⟩, ⟨"!".data, 4⟩]).runs.length 1 ∧
      (∀ r0, para'.runs.head? = some r0 → r0.text = "New".data) ∧
      (∀ i r, 1 ≤ i → para'.runs[i]? = some r → r.text = []) :=
  c6_patch_step rfl (by decide)

/-! ### Claim C7 -/

/-- Claim C7: every Paragraph whose key is not in the computed edits mapping
is left completely unchanged by apply_changes. -/
theorem c7_preservation {prs : Document} {payload : List Char} {si shi pi : Nat}
    (h : buildUpdates payload (si, shi, pi) = none) :
    paraAt (apply_changes prs payload) si shi pi = paraAt prs si shi pi := by
  rw [apply_changes, paraAt_applyUpdates, h]
  cases paraAt prs si shi pi <;> rfl

/-- Claim C7 witness: a non-addressed paragraph of a concrete document is
untouched by a concrete edit payload. -/
theorem c7_witness :
    paraAt (apply_changes exDoc "\x7bS0:Sh0:P0\x7d || New".data) 0 2 0 =
      paraAt exDoc 0 2 0 :=
  c7_preservation (by decide)

/-! ### Claim C8 -/

/-- Claim C8: the edits mapping is last-write-wins over well-formed lines —
its value at any key is the replacement of the last parsed line carrying that
key — and in particular the duplicate-ID payload from the spec leaves the
paragraph text equal to the second replacement. -/
theorem c8_last_write_wins :
    (∀ (ls : List (List Char)) (k : Nat × Nat × Nat),
      buildUpdatesFromLines ls k =
        (((ls.filterMap parseEditLine).filter (fun e => e.1 = k)).getLast?).map
          (fun e => e.2)) ∧
    (paraAt (apply_changes [⟨[⟨some [⟨[⟨"Hello".data, 0⟩]⟩]⟩]⟩]
        "\x7bS0:Sh0:P0\x7d || First\n\x7bS0:Sh0:P0\x7d || Second".data) 0 0 0).map
      paragraphText = some "Second".data := by
  constructor
  · intro ls k
    rw [buildUpdatesFromLines, foldl_updStep_spec]
    cases ((ls.filterMap parseEditLine).filter (fun e => e.1 = k)).getLast? <;> rfl
  · decide

/-! ### Claim C9 -/

/-- Claim C9: apply_changes is total and per-line fault tolerant — a line
that fails to parse leaves the computed updates unchanged, the apply pass
depends only on the mapping's values at in-range keys, and the spec's
malformed-line scenario applies the well-formed edit while leaving the
malformed line's target untouched. -/
theorem c9_fault_tolerance :
    (∀ (ls1 ls2 : List (List Char)) (line : List Char), parseEditLine line = none →
      buildUpdatesFromLines (ls1 ++ line :: ls2) = buildUpdatesFromLines (ls1 ++ ls2)) ∧
    (∀ (prs : Document) (u1 u2 : Updates),
      (∀ s sh p, paraAt prs s sh p ≠ none → u1 (s, sh, p) = u2 (s, sh, p)) →
      applyUpdates prs u1 = applyUpdates prs u2) ∧
    apply_changes exDoc "\x7bS0:Sh0:P0\x7d || New\n\x7bS0:Sh0:P1 || Bad".data =
      apply_changes exDoc "\x7bS0:Sh0:P0\x7d || New".data := by
  refine ⟨?_, ?_, by decide⟩
  · intro ls1 ls2 line hline
    rw [buildUpdatesFromLines, buildUpdatesFromLines, List.foldl_append,
      List.foldl_append, List.foldl_cons]
    have hstep : updStep (ls1.foldl updStep (fun _ => none)) line =
        ls1.foldl updStep (fun _ => none) := by
      simp only [updStep, hline]
    rw [hstep]
  · intro prs u1 u2 h
    rw [applyUpdates, applyUpdates]
    apply applySlides_congr
    intro d sl hd e sh he ps htf f p hp
    apply h
    simp [paraAt, hd, he, htf, hp]

/-- Claim C9 witness: the skip rule applied to a concrete malformed line, and
the congruence rule applied to a concrete document. -/
theorem c9_witness :
    buildUpdatesFromLines ([] ++ "\x7bS0:Sh0:P1 || Bad".data ::
        ["\x7bS0:Sh0:P0\x7d || New".data]) =
      buildUpdatesFromLines ([] ++ ["\x7bS0:Sh0:P0\x7d || New".data]) ∧
    applyUpdates exDoc (buildUpdates "\x7bS0:Sh0:P0\x7d || New".data) =
      applyUpdates exDoc (buildUpdates "\x7bS0:Sh0:P0\x7d || New".data) :=
  ⟨c9_fault_tolerance.1 [] ["\x7bS0:Sh0:P0\x7d || New".data]
      "\x7bS0:Sh0:P1 || Bad".data (by decide),
    c9_fault_tolerance.2.1 exDoc _ _ (fun s sh p _ => rfl)⟩

/-! ### Claim C10 -/

/-- Claim C10: the patcher's line matching is a substring search — a line
containing a well-formed positional identifier followed (after optional
whitespace) by the double pipe is accepted regardless of text preceding the
identifier; for every accepted line the match splits the line at a double
pipe and the recorded replacement is the trimmed remainder of the whole line
after that double pipe (a newline-free remainder, as lines are produced by
splitting on newlines), so any further double-pipe occurrences in the
remainder are retained verbatim; illustrated on a concrete line with noise
before the identifier and a second double pipe inside the replacement. -/
theorem c10_substring_match :
    (∀ (pre ws post : List Char) (s sh p : Nat), (∀ c ∈ ws, pyIsSpace c = true) →
      (parseEditLine (pre ++ fmtId s sh p ++ ws ++ '|' :: '|' :: post)).isSome = true) ∧
    (∀ (line t : List Char) (key : Nat × Nat × Nat),
      parseEditLine line = some (key, t) →
      ∃ a r, line = a ++ '|' :: '|' :: r ∧ (('\n' : Char) ∉ r → t = pyStrip r)) ∧
    parseEditLine "noise before \x7bS1:Sh2:P3\x7d || keep || this ".data =
      some ((1, 2, 3), "keep || this".data) := by
  refine ⟨?_, ?_, by decide⟩
  · intro pre ws post s sh p hws
    have hm := matchIdAt_fmt s sh p ws post hws
    simp only [List.append_assoc] at hm ⊢
    have hsome : (searchEdit
        (pre ++ (fmtId s sh p ++ (ws ++ '|' :: '|' :: post)))).isSome = true := by
      apply searchEdit_isSome_of_drop (q := pre.length)
      rw [List.drop_left, hm]
      rfl
    cases hse : searchEdit (pre ++ (fmtId s sh p ++ (ws ++ '|' :: '|' :: post))) with
    | none => rw [hse] at hsome; simp at hsome
    | some r =>
      obtain ⟨⟨d1, d2, d3⟩, cap⟩ := r
      rw [parseEditLine_eq hse]
      rfl
  · intro line t key h
    exact parseEditLine_replacement h

/-- Claim C10 witness: acceptance of a concrete line with arbitrary text
preceding the identifier, and the replacement characterization applied to a
concrete accepted line whose replacement contains a further double pipe. -/
theorem c10_witness :
    (parseEditLine ("xx ".data ++ fmtId 4 5 6 ++ " ".data ++
      '|' :: '|' :: " tail".data)).isSome = true ∧
    (∃ a r, "pad \x7bS7:Sh8:P9\x7d || body || more".data = a ++ '|' :: '|' :: r ∧
      (('\n' : Char) ∉ r → "body || more".data = pyStrip r)) :=
  ⟨c10_substring_match.1 "xx ".data " ".data " tail".data 4 5 6 (by decide),
   c10_substring_match.2.1 "pad \x7bS7:Sh8:P9\x7d || body || more".data
     "body || more".data (7, 8, 9) (by decide)⟩

end SlideProto
